import Mathlib

/-!
Verification of the cplace map-client core: the tile coordinate math
(src/client/src/map/tile.rs), the LRU tile cache (cache.rs), the tile
loader bookkeeping (loader.rs) and the map camera (camera.rs), shallowly
embedded in Lean 4.

Modelling conventions:
* Rust machine integers (u32, u8, usize, i32) become Nat / Int; the one
  place where wrap-around matters (the `as u32` cast in `wrap_tile_x`)
  is modelled explicitly and is exercised only on values where the cast
  is the identity (zoom at most 30, so `1_i32 << zoom` never overflows).
* Rust f64 values become exact rationals; transcendental kernels used by
  the camera (cosine, 2^x for fractional x, the Mercator latitude term
  asinh(tan(lat))) are not rational functions, so they are abstracted as
  an explicit parameter structure and every theorem quantifies over it.
* Fallible lookups return Option, mirroring the Rust Option returns.
-/

namespace CPlace

/-- `TileId` from tile.rs: `x`, `y` are `u32`, `z` is `u8`; modelled as `Nat`. -/
structure TileId where
  x : Nat
  y : Nat
  z : Nat
deriving DecidableEq, Repr

/-- tile.rs `TileId::max_tile_coord`: `1 << self.z`. -/
def TileId.max_tile_coord (t : TileId) : Nat :=
  1 <<< t.z

/-- tile.rs `TileId::parent_at_zoom`: `None` when `target_z >= self.z`,
otherwise the tile at `target_z` obtained by right-shifting both
coordinates by `self.z - target_z`. -/
def TileId.parent_at_zoom (t : TileId) (target_z : Nat) : Option TileId :=
  if t.z ≤ target_z then
    none
  else
    let diff := t.z - target_z
    some ⟨t.x >>> diff, t.y >>> diff, target_z⟩

/-- tile.rs `wrap_tile_x`: `let max_tiles = 1_i32 << zoom;
((x % max_tiles) + max_tiles) as u32 % max_tiles as u32`.
Rust `%` on i32 is truncated remainder, i.e. `Int.tmod`.  For zoom ≤ 30
the intermediate `(x % max_tiles) + max_tiles` is in `(0, 2^31)`, so the
`as u32` cast is exactly `Int.toNat`. -/
def wrap_tile_x (x : Int) (zoom : Nat) : Nat :=
  let maxTiles : Int := 2 ^ zoom
  (x.tmod maxTiles + maxTiles).toNat % maxTiles.toNat

/-- tile.rs `is_valid_tile_y`: `y >= 0 && y < max_tiles` with
`max_tiles = 1_i32 << zoom`. -/
def is_valid_tile_y (y : Int) (zoom : Nat) : Bool :=
  decide (0 ≤ y) && decide (y < 2 ^ zoom)

/-- First loop of tile.rs `normalize_longitude`:
`while l < -180.0 { l += 360.0 }`. -/
def normalizeLongitudeUp (l : ℚ) : ℚ :=
  if l < -180 then normalizeLongitudeUp (l + 360) else l
termination_by (⌈(-180 - l) / 360⌉).toNat
decreasing_by
  have hpos : (0 : ℚ) < (-180 - l) / 360 := by
    have : (0:ℚ) < -180 - l := by linarith
    positivity
  have hge : 0 < ⌈(-180 - l) / 360⌉ := Int.ceil_pos.mpr hpos
  have hstep : ⌈(-180 - (l + 360)) / 360⌉ = ⌈(-180 - l) / 360⌉ - 1 := by
    rw [show (-180 - (l + 360)) / 360 = (-180 - l) / 360 - 1 by ring]
    exact_mod_cast Int.ceil_sub_int ((-180 - l) / 360) 1
  omega

/-- Second loop of tile.rs `normalize_longitude`:
`while l > 180.0 { l -= 360.0 }`. -/
def normalizeLongitudeDown (l : ℚ) : ℚ :=
  if 180 < l then normalizeLongitudeDown (l - 360) else l
termination_by (⌈(l - 180) / 360⌉).toNat
decreasing_by
  have hpos : (0 : ℚ) < (l - 180) / 360 := by
    have : (0:ℚ) < l - 180 := by linarith
    positivity
  have hge : 0 < ⌈(l - 180) / 360⌉ := Int.ceil_pos.mpr hpos
  have hstep : ⌈(l - 360 - 180) / 360⌉ = ⌈(l - 180) / 360⌉ - 1 := by
    rw [show (l - 360 - 180) / 360 = (l - 180) / 360 - 1 by ring]
    exact_mod_cast Int.ceil_sub_int ((l - 180) / 360) 1
  omega

/-- tile.rs `normalize_longitude`: both while loops in sequence. -/
def normalize_longitude (lon : ℚ) : ℚ :=
  normalizeLongitudeDown (normalizeLongitudeUp lon)

/-- tile.rs `clamp_latitude`: `lat.clamp(-85.05112878, 85.05112878)`;
Rust `clamp(lo, hi)` is `min (max x lo) hi`. -/
def clamp_latitude (lat : ℚ) : ℚ :=
  min (max lat (-85.05112878)) 85.05112878

/-! ### Tile cache (cache.rs)

The cache entry owns GPU resources that the claims never inspect; only
its `memory_size` field enters the cache arithmetic, so the model keeps
just that field.  The `HashMap<TileId, Arc<CachedTile>>` is modelled as
an association list with unique keys (the code maintains uniqueness:
every insertion first removes the old binding). -/

/-- cache.rs `CachedTile`, restricted to the field the cache logic reads. -/
structure CachedTile where
  memory_size : Nat
deriving DecidableEq, Repr

/-- Lookup in the association list modelling the `HashMap`. -/
def lookupTile (id : TileId) : List (TileId × CachedTile) → Option CachedTile
  | [] => none
  | p :: rest => if p.1 = id then some p.2 else lookupTile id rest

/-- Removal of a key from the association list modelling `HashMap::remove`
(the code keeps keys unique, so the filter removes at most one binding). -/
def eraseKey (id : TileId) (l : List (TileId × CachedTile)) :
    List (TileId × CachedTile) :=
  l.filter (fun p => decide (p.1 ≠ id))

/-- cache.rs `TileCache` state: the tile map, the recency order
(oldest first), and the count/memory budgets. -/
structure TileCache where
  tiles : List (TileId × CachedTile)
  access_order : List TileId
  max_tiles : Nat
  current_memory : Nat
  max_memory : Nat
deriving DecidableEq, Repr

/-- cache.rs `TileCache::new`. -/
def TileCache.new (max_tiles max_memory : Nat) : TileCache :=
  ⟨[], [], max_tiles, 0, max_memory⟩

/-- cache.rs `TileCache::contains`. -/
def TileCache.contains (c : TileCache) (id : TileId) : Bool :=
  (lookupTile id c.tiles).isSome

/-- cache.rs `TileCache::peek`: read without touching the recency order. -/
def TileCache.peek (c : TileCache) (id : TileId) : Option CachedTile :=
  lookupTile id c.tiles

/-- cache.rs `TileCache::update_access_order`: if the key is present in
the recency list, remove its (first) occurrence and push it at the back. -/
def TileCache.update_access_order (c : TileCache) (id : TileId) : TileCache :=
  if id ∈ c.access_order then
    { c with access_order := c.access_order.erase id ++ [id] }
  else c

/-- cache.rs `TileCache::get`: on a hit, move the key to
most-recently-used and return the entry; state returned alongside. -/
def TileCache.get (c : TileCache) (id : TileId) : Option CachedTile × TileCache :=
  if (lookupTile id c.tiles).isSome then
    let c' := c.update_access_order id
    (lookupTile id c'.tiles, c')
  else
    (none, c)

/-- cache.rs `TileCache::should_evict`:
`!tiles.is_empty() && (tiles.len() >= max_tiles || current_memory + new > max_memory)`. -/
def TileCache.should_evict (c : TileCache) (new_tile_memory : Nat) : Bool :=
  !c.tiles.isEmpty &&
    (decide (c.max_tiles ≤ c.tiles.length) ||
     decide (c.max_memory < c.current_memory + new_tile_memory))

/-- cache.rs `TileCache::evict_oldest`: drop the head of the recency list
from the map, returning `none` when nothing was evicted (the Rust
function returns `false` there, which breaks the caller's loop). -/
def TileCache.evict_oldest (c : TileCache) : Option TileCache :=
  match c.access_order with
  | [] => none
  | oldest :: rest =>
    match lookupTile oldest c.tiles with
    | some tile =>
      some { c with
        tiles := eraseKey oldest c.tiles,
        current_memory := c.current_memory - tile.memory_size,
        access_order := rest }
    | none => none

/-- The `while should_evict { if !evict_oldest { break } }` loop of
cache.rs `TileCache::insert`, fuelled.  Every successful iteration pops
one element of `access_order`, so `access_order.length + 1` units of
fuel (as supplied by `evictTiles`) always outlast the Rust loop; the
fuel-exhaustion branch is unreachable there. -/
def TileCache.evictLoopGo (mem : Nat) : Nat → TileCache → TileCache
  | 0, c => c
  | fuel + 1, c =>
    if c.should_evict mem then
      match c.evict_oldest with
      | some c' => TileCache.evictLoopGo mem fuel c'
      | none => c
    else c

/-- The eviction loop of cache.rs `TileCache::insert` with enough fuel. -/
def TileCache.evictTiles (c : TileCache) (mem : Nat) : TileCache :=
  TileCache.evictLoopGo mem (c.access_order.length + 1) c

/-- cache.rs `TileCache::insert`: evict while over budget, drop any
previous binding of the key, then install the entry as newest. -/
def TileCache.insert (c : TileCache) (id : TileId) (tile : CachedTile) : TileCache :=
  let memory_size := tile.memory_size
  let c1 := c.evictTiles memory_size
  let c2 :=
    match lookupTile id c1.tiles with
    | some old =>
      { c1 with
        current_memory := c1.current_memory - old.memory_size,
        tiles := eraseKey id c1.tiles,
        access_order := c1.access_order.filter (fun k => decide (k ≠ id)) }
    | none => c1
  { c2 with
    current_memory := c2.current_memory + memory_size,
    tiles := c2.tiles ++ [(id, tile)],
    access_order := c2.access_order ++ [id] }

/-- cache.rs `TileCache::remove`. -/
def TileCache.remove (c : TileCache) (id : TileId) : Option CachedTile × TileCache :=
  match lookupTile id c.tiles with
  | some tile =>
    (some tile,
     { c with
       current_memory := c.current_memory - tile.memory_size,
       tiles := eraseKey id c.tiles,
       access_order := c.access_order.filter (fun k => decide (k ≠ id)) })
  | none => (none, c)

/-- cache.rs `TileCache::clear`. -/
def TileCache.clear (c : TileCache) : TileCache :=
  { c with tiles := [], access_order := [], current_memory := 0 }

/-- The keys of the resident tiles, in association-list order
(which for this model is insertion order). -/
def residentKeys (c : TileCache) : List TileId :=
  c.tiles.map Prod.fst

/-- Total `memory_size` over a tile list. -/
def memSum (l : List (TileId × CachedTile)) : Nat :=
  (l.map (fun p => p.2.memory_size)).sum

/-- The internal cache invariant of cache.rs (spec section 3): key
uniqueness of the map, the recency order is a permutation of the map's
keys, and `current_memory` is the sum of resident `memory_size`s. -/
def CacheInv (c : TileCache) : Prop :=
  (residentKeys c).Nodup ∧
  c.access_order.Perm (residentKeys c) ∧
  c.current_memory = memSum c.tiles

/-- Cache states reachable from a fresh cache through the public
mutating operations of cache.rs. -/
inductive CacheReachable : TileCache → Prop where
  | new (mt mm : Nat) : CacheReachable (TileCache.new mt mm)
  | insert {c : TileCache} (id : TileId) (e : CachedTile) :
      CacheReachable c → CacheReachable (c.insert id e)
  | get {c : TileCache} (id : TileId) :
      CacheReachable c → CacheReachable (c.get id).2
  | remove {c : TileCache} (id : TileId) :
      CacheReachable c → CacheReachable (c.remove id).2
  | clear {c : TileCache} :
      CacheReachable c → CacheReachable c.clear

/-- Folding `TileCache::insert` over a list of (key, entry) pairs. -/
def insertAll (c : TileCache) (l : List (TileId × CachedTile)) : TileCache :=
  l.foldl (fun acc p => acc.insert p.1 p.2) c

/-- Canonical shapes of a `max_tiles = 2` cache whose resident entries
all have `memory_size ≤ bd`: empty, one resident, or two residents with
the map list aligned with the recency order (oldest first). -/
def Canon2 (mm bd : Nat) (c : TileCache) : Prop :=
  c = ⟨[], [], 2, 0, mm⟩ ∨
  (∃ k e, e.memory_size ≤ bd ∧
    c = ⟨[(k, e)], [k], 2, e.memory_size, mm⟩) ∨
  (∃ a ea b eb, a ≠ b ∧ ea.memory_size ≤ bd ∧ eb.memory_size ≤ bd ∧
    c = ⟨[(a, ea), (b, eb)], [a, b], 2, ea.memory_size + eb.memory_size, mm⟩)

/-! ### Tile loader (loader.rs)

Both backends (native worker thread + mpsc channels, wasm cooperative
tasks + shared buffer) present the same observable contract.  The model
keeps the loader-owned `pending` set (a `HashSet<TileId>`, modelled as a
duplicate-free list) together with the fetch-execution side of the
boundary: `inflight` are dispatched requests whose terminal result has
not been produced yet, `results` is the completed-result queue that
`poll` consumes.  The environment step `complete` models the worker (or
cooperative task) turning one in-flight request into exactly one
terminal result; the channel send in `request` is modelled as always
succeeding (the worker owns the receiver for the loader's lifetime). -/

/-- loader.rs `TileLoadResult`. -/
inductive TileLoadResult where
  | Success (id : TileId) (bytes : List Nat)
  | Failed (id : TileId) (reason : String)
deriving DecidableEq, Repr

/-- The tile key of a terminal result (both constructors carry it). -/
def TileLoadResult.key : TileLoadResult → TileId
  | .Success id _ => id
  | .Failed id _ => id

/-- loader.rs `TileLoader` observable state. -/
structure TileLoader where
  pending : List TileId
  inflight : List TileId
  results : List TileLoadResult
deriving DecidableEq, Repr

/-- loader.rs `TileLoader::new`: empty bookkeeping. -/
def TileLoader.new : TileLoader :=
  ⟨[], [], []⟩

/-- loader.rs `TileLoader::request`: no-op when the key is already
pending; otherwise dispatch the fetch and mark the key pending. -/
def TileLoader.request (s : TileLoader) (id : TileId) : TileLoader :=
  if id ∈ s.pending then s
  else { s with pending := id :: s.pending, inflight := s.inflight ++ [id] }

/-- Environment step: a dispatched fetch for `r.key` reaches its terminal
result `r`, which is appended to the result queue (loader.rs
`worker_thread` / the wasm task body). -/
def TileLoader.complete (s : TileLoader) (r : TileLoadResult) : TileLoader :=
  if r.key ∈ s.inflight then
    { s with inflight := s.inflight.erase r.key, results := s.results ++ [r] }
  else s

/-- loader.rs `TileLoader::poll`: non-blocking, pops at most one
completed result and removes its key from `pending`. -/
def TileLoader.poll (s : TileLoader) : Option TileLoadResult × TileLoader :=
  match s.results with
  | [] => (none, s)
  | r :: rest =>
    (some r, { s with results := rest, pending := s.pending.erase r.key })

/-- loader.rs `TileLoader::is_loading`. -/
def TileLoader.is_loading (s : TileLoader) (id : TileId) : Bool :=
  decide (id ∈ s.pending)

/-- loader.rs `TileLoader::pending_count`. -/
def TileLoader.pending_count (s : TileLoader) : Nat :=
  s.pending.length

/-- loader.rs `TileLoader::clear_pending`. -/
def TileLoader.clear_pending (s : TileLoader) : TileLoader :=
  { s with pending := [] }

/-- Loader states reachable from a fresh loader through requests,
environment completions, polls and `clear_pending`. -/
inductive LoaderReachable : TileLoader → Prop where
  | new : LoaderReachable TileLoader.new
  | request {s : TileLoader} (id : TileId) :
      LoaderReachable s → LoaderReachable (s.request id)
  | complete {s : TileLoader} (r : TileLoadResult) :
      LoaderReachable s → LoaderReachable (s.complete r)
  | poll {s : TileLoader} :
      LoaderReachable s → LoaderReachable s.poll.2
  | clear_pending {s : TileLoader} :
      LoaderReachable s → LoaderReachable s.clear_pending

/-! ### Map camera (camera.rs)

f64 arithmetic is modelled over ℚ.  The three transcendental kernels the
camera uses are not rational functions, so they are supplied as a
parameter structure `Transcendental`; every theorem quantifies over it,
hence holds for whatever values the f64 library functions produce. -/

/-- The transcendental kernels of camera.rs, abstracted:
`mercNorm lat` stands for `(1 - asinh(tan(lat·π/180)) / π) / 2` (the
normalized Mercator y of a latitude given in degrees), `cosDeg lat` for
`cos(lat·π/180)`, and `pow2 e` for `2.0_f64.powf(e)`. -/
structure Transcendental where
  mercNorm : ℚ → ℚ
  cosDeg : ℚ → ℚ
  pow2 : ℚ → ℚ

/-- camera.rs `TILE_SIZE`. -/
def TILE_SIZE : ℚ := 256

/-- camera.rs `MapCamera` state; `center` is `(lon, lat)`. -/
structure MapCamera where
  center : ℚ × ℚ
  zoom : ℚ
  viewport_width : Nat
  viewport_height : Nat
deriving DecidableEq, Repr

/-- Rust `f64::clamp`: `min (max x lo) hi`. -/
def clampQ (x lo hi : ℚ) : ℚ :=
  min (max x lo) hi

/-- camera.rs `MapCamera::tile_zoom`: `zoom.floor() as u8` (the camera
keeps `zoom` in `[0, 19]`, where the cast is `Int.toNat` of the floor). -/
def MapCamera.tile_zoom (c : MapCamera) : Nat :=
  (⌊c.zoom⌋).toNat

/-- camera.rs `MapCamera::zoom_scale`: `2^(zoom - zoom.floor())`. -/
def MapCamera.zoom_scale (T : Transcendental) (c : MapCamera) : ℚ :=
  T.pow2 (c.zoom - ⌊c.zoom⌋)

/-- camera.rs `MapCamera::meters_per_pixel`. -/
def MapCamera.meters_per_pixel (T : Transcendental) (c : MapCamera) : ℚ :=
  let earth_circumference : ℚ := 40075016.686
  earth_circumference * T.cosDeg c.center.2 / (TILE_SIZE * T.pow2 c.zoom)

/-- tile.rs `lon_lat_to_tile_f64`: fractional tile coordinates.  The x
part is exact rational arithmetic; the y part goes through the Mercator
kernel. -/
def lon_lat_to_tile_f64 (T : Transcendental) (lon lat : ℚ) (zoom : Nat) : ℚ × ℚ :=
  let n : ℚ := 2 ^ zoom
  ((lon + 180) / 360 * n, T.mercNorm lat * n)

/-- camera.rs `MapCamera::zoom_at`: clamp the new zoom first, return
early (keeping the already-written zoom) when the net change is below
0.001, otherwise shift the center so the point under the cursor stays
fixed. -/
def MapCamera.zoom_at (T : Transcendental) (c : MapCamera) (delta screen_x screen_y : ℚ) :
    MapCamera :=
  let old_zoom := c.zoom
  let c1 : MapCamera := { c with zoom := clampQ (c.zoom + delta) 0 19 }
  if |c1.zoom - old_zoom| < 0.001 then
    c1
  else
    let offset_x := screen_x - (c1.viewport_width : ℚ) / 2
    let offset_y := screen_y - (c1.viewport_height : ℚ) / 2
    let scale_change := T.pow2 (c1.zoom - old_zoom)
    let new_offset_x := offset_x * (1 - 1 / scale_change)
    let new_offset_y := offset_y * (1 - 1 / scale_change)
    let meters_per_pixel := c1.meters_per_pixel T
    let cos_lat := max (T.cosDeg c1.center.2) 0.01
    let lon_delta := new_offset_x * meters_per_pixel / (111320 * cos_lat)
    let lat_delta := new_offset_y * meters_per_pixel / 111320
    { c1 with
      center := (normalize_longitude (c1.center.1 + lon_delta),
                 clamp_latitude (c1.center.2 - lat_delta)) }

/-- Enumeration helper for the inclusive integer ranges of the
collection loop: `intRangeGo lo n` lists `lo, lo+1, …, lo+n-1`. -/
def intRangeGo (lo : Int) : Nat → List Int
  | 0 => []
  | n + 1 => lo :: intRangeGo (lo + 1) n

/-- Integer range `lo..=hi` as a list (the `for` ranges of
`visible_tiles_with_buffer`), in increasing order. -/
def intRange (lo hi : Int) : List Int :=
  intRangeGo lo (hi + 1 - lo).toNat

/-- The tile-collection double loop of camera.rs
`MapCamera::visible_tiles_with_buffer`: rows `min_y..=max_y` filtered by
`is_valid_tile_y`, columns `min_x..=max_x` wrapped through
`wrap_tile_x`; row-major order. -/
def collectTiles (zoom : Nat) (min_x max_x min_y max_y : Int) : List TileId :=
  ((intRange min_y max_y).filter (fun ty => is_valid_tile_y ty zoom)).flatMap
    (fun ty =>
      (intRange min_x max_x).map
        (fun tx => TileId.mk (wrap_tile_x tx zoom) ty.toNat zoom))

/-- The bound computation of camera.rs `visible_tiles_with_buffer`:
everything before the collection loop.  `tiles_x/2` is Rust i32 division
(truncated), i.e. `Int.tdiv`. -/
def MapCamera.visibleBounds (T : Transcendental) (c : MapCamera) (buffer : Int) :
    Int × Int × Int × Int :=
  let z := c.tile_zoom
  let scale := c.zoom_scale T
  let scaled_tile_size := TILE_SIZE * scale
  let cxy := lon_lat_to_tile_f64 T c.center.1 c.center.2 z
  let tiles_x : Int := ⌈(c.viewport_width : ℚ) / scaled_tile_size⌉ + 1
  let tiles_y : Int := ⌈(c.viewport_height : ℚ) / scaled_tile_size⌉ + 1
  let half_tiles_x := tiles_x.tdiv 2 + buffer
  let half_tiles_y := tiles_y.tdiv 2 + buffer
  (⌊cxy.1⌋ - half_tiles_x, ⌈cxy.1⌉ + half_tiles_x,
   ⌊cxy.2⌋ - half_tiles_y, ⌈cxy.2⌉ + half_tiles_y)

/-- camera.rs `MapCamera::visible_tiles_with_buffer`. -/
def MapCamera.visible_tiles_with_buffer (T : Transcendental) (c : MapCamera)
    (buffer : Int) : List TileId :=
  let b := c.visibleBounds T buffer
  collectTiles c.tile_zoom b.1 b.2.1 b.2.2.1 b.2.2.2

/-- camera.rs `MapCamera::visible_tiles`: buffer 1. -/
def MapCamera.visible_tiles (T : Transcendental) (c : MapCamera) : List TileId :=
  c.visible_tiles_with_buffer T 1

/-- A concrete kernel instance agreeing with the exact f64 values at the
inputs the concrete theorems use: `mercNorm 0 = 1/2` (f64: `tan(0.0)`,
`asinh(0.0)` are exactly `0.0`, so `(1 - 0/π)/2 = 0.5`), `pow2 0 = 1`
(f64: `powf(2.0, 0.0) = 1.0`), `cosDeg 0 = 1` (f64: `cos(0.0) = 1.0`). -/
def T0 : Transcendental :=
  ⟨fun _ => 1 / 2, fun _ => 1, fun _ => 1⟩

/-! ## Tile-math theorems (claims C7, C8, C10) -/

/-- The first normalization loop never returns a value below -180. -/
theorem normalizeLongitudeUp_ge (l : ℚ) : -180 ≤ normalizeLongitudeUp l := by
  induction l using normalizeLongitudeUp.induct with
  | case1 l h ih => rw [normalizeLongitudeUp, if_pos h]; exact ih
  | case2 l h => rw [normalizeLongitudeUp, if_neg h]; linarith

/-- The first normalization loop is the identity on inputs ≥ -180. -/
theorem normalizeLongitudeUp_id (l : ℚ) (h : -180 ≤ l) :
    normalizeLongitudeUp l = l := by
  rw [normalizeLongitudeUp, if_neg (by linarith)]

/-- The second normalization loop never returns a value above 180. -/
theorem normalizeLongitudeDown_le (l : ℚ) : normalizeLongitudeDown l ≤ 180 := by
  induction l using normalizeLongitudeDown.induct with
  | case1 l h ih => rw [normalizeLongitudeDown, if_pos h]; exact ih
  | case2 l h => rw [normalizeLongitudeDown, if_neg h]; linarith

/-- The second normalization loop keeps values ≥ -180 at or above -180. -/
theorem normalizeLongitudeDown_ge (l : ℚ) : -180 ≤ l → -180 ≤ normalizeLongitudeDown l := by
  induction l using normalizeLongitudeDown.induct with
  | case1 l h ih =>
    intro _
    rw [normalizeLongitudeDown, if_pos h]
    exact ih (by linarith)
  | case2 l h =>
    intro hl
    rw [normalizeLongitudeDown, if_neg h]
    exact hl

/-- The second normalization loop is the identity on inputs ≤ 180. -/
theorem normalizeLongitudeDown_id (l : ℚ) (h : l ≤ 180) :
    normalizeLongitudeDown l = l := by
  rw [normalizeLongitudeDown, if_neg (by linarith)]

/-- C7: for every input `lon`, `normalize_longitude lon` lies in
[-180, 180]; and every `lon` already in [-180, 180] is a fixed point. -/
theorem normalize_longitude_spec (lon : ℚ) :
    -180 ≤ normalize_longitude lon ∧ normalize_longitude lon ≤ 180 ∧
    (-180 ≤ lon → lon ≤ 180 → normalize_longitude lon = lon) := by
  unfold normalize_longitude
  refine ⟨normalizeLongitudeDown_ge _ (normalizeLongitudeUp_ge lon),
          normalizeLongitudeDown_le _, ?_⟩
  intro h1 h2
  rw [normalizeLongitudeUp_id lon h1, normalizeLongitudeDown_id lon h2]

/-- Witness for C7 at `lon = 170`. -/
theorem normalize_longitude_spec_witness :
    -180 ≤ normalize_longitude 170 ∧ normalize_longitude 170 ≤ 180 ∧
    normalize_longitude 170 = 170 :=
  ⟨(normalize_longitude_spec 170).1, (normalize_longitude_spec 170).2.1,
   (normalize_longitude_spec 170).2.2 (by norm_num) (by norm_num)⟩

/-- C8: for every valid zoom and every i32 input, `wrap_tile_x` lands in
`[0, 2^z)` (Nat, hence ≥ 0); and the three concrete values of the spec. -/
theorem wrap_tile_x_spec :
    (∀ (x : Int) (z : Nat), z ≤ 19 → -(2 ^ 31) ≤ x → x < 2 ^ 31 →
      wrap_tile_x x z < 2 ^ z) ∧
    wrap_tile_x 4 2 = 0 ∧ wrap_tile_x (-1) 2 = 3 ∧ wrap_tile_x 2 2 = 2 := by
  refine ⟨?_, by decide, by decide, by decide⟩
  intro x z _ _ _
  have h2 : ((2 : Int) ^ z).toNat = 2 ^ z := by
    rw [show ((2 : Int) ^ z) = ((2 ^ z : Nat) : Int) by push_cast; ring]
    exact Int.toNat_natCast _
  unfold wrap_tile_x
  simp only [h2]
  exact Nat.mod_lt _ (by positivity)

/-- Witness for C8 at `x = -1`, `z = 2`. -/
theorem wrap_tile_x_spec_witness : wrap_tile_x (-1) 2 < 2 ^ 2 :=
  wrap_tile_x_spec.1 (-1) 2 (by norm_num) (by norm_num) (by norm_num)

/-- C10: `parent_at_zoom` returns `none` exactly when `target_z ≥ z`;
otherwise it right-shifts both coordinates by the zoom difference, and
validity of the input tile carries over to the parent. -/
theorem parent_at_zoom_spec :
    (∀ (t : TileId) (tz : Nat), t.parent_at_zoom tz = none ↔ t.z ≤ tz) ∧
    (∀ (t : TileId) (tz : Nat), tz < t.z →
      t.parent_at_zoom tz =
        some ⟨t.x >>> (t.z - tz), t.y >>> (t.z - tz), tz⟩) ∧
    (∀ (t : TileId) (tz : Nat) (p : TileId), tz < t.z →
      t.x < 2 ^ t.z → t.y < 2 ^ t.z → t.parent_at_zoom tz = some p →
      p.x < 2 ^ tz ∧ p.y < 2 ^ tz) := by
  refine ⟨?_, ?_, ?_⟩
  · intro t tz
    unfold TileId.parent_at_zoom
    split
    · simp only [true_iff]; omega
    · simp only [reduceCtorEq, false_iff]; omega
  · intro t tz h
    unfold TileId.parent_at_zoom
    rw [if_neg (by omega)]
  · intro t tz p h hx hy hp
    unfold TileId.parent_at_zoom at hp
    rw [if_neg (by omega)] at hp
    simp only [Option.some.injEq] at hp
    subst hp
    have key : ∀ v : Nat, v < 2 ^ t.z → v >>> (t.z - tz) < 2 ^ tz := by
      intro v hv
      rw [Nat.shiftRight_eq_div_pow]
      rw [Nat.div_lt_iff_lt_mul (by positivity)]
      rw [← pow_add]
      rw [show tz + (t.z - tz) = t.z by omega]
      exact hv
    exact ⟨key t.x hx, key t.y hy⟩

/-- Witness for C10 at tile (3, 2, 2), target zoom 1. -/
theorem parent_at_zoom_spec_witness :
    ((TileId.mk 3 2 2).parent_at_zoom 1 = none ↔ (2 : Nat) ≤ 1) ∧
    (TileId.mk 3 2 2).parent_at_zoom 1 = some ⟨3 >>> 1, 2 >>> 1, 1⟩ ∧
    ((1 : Nat) < 2 ^ 1 ∧ (1 : Nat) < 2 ^ 1) :=
  ⟨parent_at_zoom_spec.1 ⟨3, 2, 2⟩ 1,
   parent_at_zoom_spec.2.1 ⟨3, 2, 2⟩ 1 (by decide),
   parent_at_zoom_spec.2.2 ⟨3, 2, 2⟩ 1 ⟨1, 1, 1⟩ (by decide) (by decide)
     (by decide) (by decide)⟩

/-! ## Loader theorems (claim C4) -/

/-- The pending set of any reachable loader state is duplicate-free
(`HashSet` semantics). -/
theorem loader_pending_nodup {s : TileLoader} (h : LoaderReachable s) :
    s.pending.Nodup := by
  induction h with
  | new => exact List.nodup_nil
  | request id _ ih =>
    unfold TileLoader.request
    split
    · exact ih
    · exact List.nodup_cons.mpr ⟨by assumption, ih⟩
  | complete r _ ih =>
    unfold TileLoader.complete
    split <;> exact ih
  | poll _ ih =>
    unfold TileLoader.poll
    split
    · exact ih
    · exact ih.erase _
  | clear_pending _ _ => exact List.nodup_nil

/-- C4: the pending-set lifecycle of loader.rs.  (1) a `request` for an
already-pending key is a complete no-op (no dispatch, no second pending
entry); (2) a `request` for a non-pending key dispatches and marks it
pending; (3) after any request the key has exactly one pending entry;
(4) a `complete`d fetch does not touch `pending`; (5) a `poll` that
returns result `r` removes exactly `r`'s key from `pending`, dispatching
nothing; (6) an empty `poll` changes nothing; (7) after `poll` returns a
terminal result for `K`, `is_loading K` is false and a subsequent
`request K` is accepted as a fresh dispatch. -/
theorem loader_pending_lifecycle :
    (∀ (s : TileLoader) (k : TileId), k ∈ s.pending → s.request k = s) ∧
    (∀ (s : TileLoader) (k : TileId), k ∉ s.pending →
      (s.request k).pending = k :: s.pending ∧
      (s.request k).inflight = s.inflight ++ [k]) ∧
    (∀ (s : TileLoader) (k : TileId), LoaderReachable s →
      (s.request k).pending.count k = 1) ∧
    (∀ (s : TileLoader) (r : TileLoadResult), (s.complete r).pending = s.pending) ∧
    (∀ (s : TileLoader) (r : TileLoadResult) (s' : TileLoader),
      s.poll = (some r, s') →
      s'.pending = s.pending.erase r.key ∧ s'.inflight = s.inflight) ∧
    (∀ s : TileLoader, s.poll.1 = none → s.poll.2 = s) ∧
    (∀ (s : TileLoader) (r : TileLoadResult) (s' : TileLoader), LoaderReachable s →
      s.poll = (some r, s') →
      s'.is_loading r.key = false ∧
      (s'.request r.key).pending = r.key :: s'.pending ∧
      (s'.request r.key).inflight = s'.inflight ++ [r.key]) := by
  have hreq_mem : ∀ (s : TileLoader) (k : TileId), k ∈ s.pending → s.request k = s := by
    intro s k h
    unfold TileLoader.request
    rw [if_pos h]
  have hreq_new : ∀ (s : TileLoader) (k : TileId), k ∉ s.pending →
      (s.request k).pending = k :: s.pending ∧
      (s.request k).inflight = s.inflight ++ [k] := by
    intro s k h
    unfold TileLoader.request
    rw [if_neg h]
    exact ⟨rfl, rfl⟩
  have hpoll : ∀ (s : TileLoader) (r : TileLoadResult) (s' : TileLoader),
      s.poll = (some r, s') →
      s'.pending = s.pending.erase r.key ∧ s'.inflight = s.inflight := by
    intro s r s' h
    unfold TileLoader.poll at h
    rcases hres : s.results with _ | ⟨r0, rest⟩ <;> rw [hres] at h
    · simp at h
    · simp only [Prod.mk.injEq, Option.some.injEq] at h
      obtain ⟨h1, h2⟩ := h
      subst h1
      subst h2
      exact ⟨rfl, rfl⟩
  refine ⟨hreq_mem, hreq_new, ?_, ?_, hpoll, ?_, ?_⟩
  · intro s k hs
    by_cases h : k ∈ s.pending
    · rw [hreq_mem s k h]
      exact List.count_eq_one_of_mem (loader_pending_nodup hs) h
    · rw [(hreq_new s k h).1]
      simp [List.count_eq_zero.mpr h]
  · intro s r
    unfold TileLoader.complete
    split <;> rfl
  · intro s h
    unfold TileLoader.poll at h ⊢
    rcases hres : s.results with _ | ⟨r0, rest⟩
    · rfl
    · rw [hres] at h
      simp at h
  · intro s r s' hs h
    have hp := hpoll s r s' h
    have hnd := loader_pending_nodup hs
    have hout : r.key ∉ s'.pending := by
      rw [hp.1]
      simp [hnd.mem_erase_iff]
    refine ⟨?_, hreq_new s' r.key hout⟩
    unfold TileLoader.is_loading
    simpa using hout

/-- Witness for C4: the trace request K; complete K; poll on the key
K = (1,2,3). -/
theorem loader_pending_lifecycle_witness :
    (((TileLoader.new.request ⟨1, 2, 3⟩).complete
        (TileLoadResult.Success ⟨1, 2, 3⟩ [])).poll.2).is_loading
      (TileLoadResult.Success ⟨1, 2, 3⟩ [] : TileLoadResult).key = false ∧
    ((((TileLoader.new.request ⟨1, 2, 3⟩).complete
        (TileLoadResult.Success ⟨1, 2, 3⟩ [])).poll.2).request
      (TileLoadResult.Success ⟨1, 2, 3⟩ [] : TileLoadResult).key).pending =
      (TileLoadResult.Success ⟨1, 2, 3⟩ [] : TileLoadResult).key ::
      (((TileLoader.new.request ⟨1, 2, 3⟩).complete
        (TileLoadResult.Success ⟨1, 2, 3⟩ [])).poll.2).pending ∧
    ((((TileLoader.new.request ⟨1, 2, 3⟩).complete
        (TileLoadResult.Success ⟨1, 2, 3⟩ [])).poll.2).request
      (TileLoadResult.Success ⟨1, 2, 3⟩ [] : TileLoadResult).key).inflight =
      (((TileLoader.new.request ⟨1, 2, 3⟩).complete
        (TileLoadResult.Success ⟨1, 2, 3⟩ [])).poll.2).inflight ++
      [(TileLoadResult.Success ⟨1, 2, 3⟩ [] : TileLoadResult).key] :=
  loader_pending_lifecycle.2.2.2.2.2.2
    ((TileLoader.new.request ⟨1, 2, 3⟩).complete (TileLoadResult.Success ⟨1, 2, 3⟩ []))
    (TileLoadResult.Success ⟨1, 2, 3⟩ [])
    (((TileLoader.new.request ⟨1, 2, 3⟩).complete
        (TileLoadResult.Success ⟨1, 2, 3⟩ [])).poll.2)
    (LoaderReachable.complete (TileLoadResult.Success ⟨1, 2, 3⟩ [])
      (LoaderReachable.request ⟨1, 2, 3⟩ LoaderReachable.new))
    (by decide)

/-! ## Cache list-level lemmas -/

/-- `!=` and `decide (· ≠ ·)` agree on tile ids. -/
theorem ne_pred_eq (a : TileId) :
    (fun x => x != a) = (fun x => decide (x ≠ a)) := by
  funext x
  by_cases h : x = a <;> simp [h]

/-- A lookup misses exactly when the key is absent from the key list. -/
theorem lookupTile_eq_none {id : TileId} {l : List (TileId × CachedTile)} :
    lookupTile id l = none ↔ id ∉ l.map Prod.fst := by
  induction l with
  | nil => simp [lookupTile]
  | cons p rest ih =>
    by_cases h : p.1 = id
    · simp [lookupTile, if_pos h, h]
    · simp only [lookupTile, if_neg h, List.map_cons, List.mem_cons, not_or, ih]
      have : ¬ id = p.1 := fun he => h he.symm
      simp [this]

/-- A key present in the key list has a successful lookup. -/
theorem lookupTile_some_of_mem {id : TileId} {l : List (TileId × CachedTile)}
    (h : id ∈ l.map Prod.fst) : ∃ e, lookupTile id l = some e := by
  rcases hlk : lookupTile id l with _ | e
  · exact absurd h (lookupTile_eq_none.mp hlk)
  · exact ⟨e, rfl⟩

/-- A successful lookup returns a pair of the list. -/
theorem lookupTile_mem_pair {id : TileId} {l : List (TileId × CachedTile)} {e : CachedTile}
    (h : lookupTile id l = some e) : (id, e) ∈ l := by
  induction l with
  | nil => simp [lookupTile] at h
  | cons p rest ih =>
    by_cases hp : p.1 = id
    · rw [lookupTile, if_pos hp] at h
      injection h with h
      have hpe : (id, e) = p := by rw [← hp, ← h]
      rw [hpe]
      exact List.mem_cons_self _ _
    · rw [lookupTile, if_neg hp] at h
      exact List.mem_cons_of_mem _ (ih h)

/-- Erasing an absent key is a no-op. -/
theorem eraseKey_of_not_mem {id : TileId} {l : List (TileId × CachedTile)}
    (h : id ∉ l.map Prod.fst) : eraseKey id l = l := by
  unfold eraseKey
  rw [List.filter_eq_self]
  intro p hp
  simp only [decide_eq_true_eq]
  intro he
  exact h (he ▸ List.mem_map_of_mem Prod.fst hp)

/-- Keys after `eraseKey` are the filtered keys. -/
theorem keys_eraseKey (id : TileId) (l : List (TileId × CachedTile)) :
    (eraseKey id l).map Prod.fst =
      (l.map Prod.fst).filter (fun k => decide (k ≠ id)) := by
  induction l with
  | nil => rfl
  | cons p rest ih =>
    by_cases h : p.1 = id <;>
      simp [eraseKey, List.filter_cons, h, ih] <;>
      simp [eraseKey] at ih <;>
      exact ih

/-- `memSum` of a cons. -/
theorem memSum_cons (p : TileId × CachedTile) (l : List (TileId × CachedTile)) :
    memSum (p :: l) = p.2.memory_size + memSum l := by
  simp [memSum]

/-- `memSum` of appending a single entry. -/
theorem memSum_append (l : List (TileId × CachedTile)) (p : TileId × CachedTile) :
    memSum (l ++ [p]) = memSum l + p.2.memory_size := by
  simp [memSum]

/-- Under unique keys, erasing a present key subtracts exactly its size. -/
theorem memSum_eraseKey {id : TileId} {l : List (TileId × CachedTile)} {e : CachedTile} :
    (l.map Prod.fst).Nodup → lookupTile id l = some e →
    memSum l = memSum (eraseKey id l) + e.memory_size := by
  induction l with
  | nil => intro _ h; simp [lookupTile] at h
  | cons p rest ih =>
    intro hnd hlk
    simp only [List.map_cons, List.nodup_cons] at hnd
    by_cases h : p.1 = id
    · rw [lookupTile, if_pos h] at hlk
      injection hlk with hlk
      have hrest : eraseKey id rest = rest :=
        eraseKey_of_not_mem (by rw [← h]; exact hnd.1)
      have hdrop : eraseKey id (p :: rest) = rest := by
        unfold eraseKey
        rw [List.filter_cons]
        unfold eraseKey at hrest
        simp [h, hrest]
        intro a b hab he
        subst he
        exact (h ▸ hnd.1) (List.mem_map_of_mem Prod.fst hab)
      rw [hdrop, memSum_cons, hlk]
      omega
    · rw [lookupTile, if_neg h] at hlk
      have hkeep : eraseKey id (p :: rest) = p :: eraseKey id rest := by
        unfold eraseKey
        rw [List.filter_cons]
        simp [h]
      rw [hkeep, memSum_cons, memSum_cons, ih hnd.2 hlk]
      omega

/-- Characterization of cache.rs `should_evict` returning true. -/
theorem should_evict_iff (c : TileCache) (m : Nat) :
    c.should_evict m = true ↔
      c.tiles ≠ [] ∧
        (c.max_tiles ≤ c.tiles.length ∨
         c.max_memory < c.current_memory + m) := by
  unfold TileCache.should_evict
  cases c.tiles <;> simp

/-- Characterization of cache.rs `should_evict` returning false. -/
theorem should_evict_eq_false_iff (c : TileCache) (m : Nat) :
    c.should_evict m = false ↔
      c.tiles = [] ∨
        (c.tiles.length < c.max_tiles ∧
         c.current_memory + m ≤ c.max_memory) := by
  rw [← Bool.not_eq_true, should_evict_iff]
  by_cases h : c.tiles = [] <;> simp [h]

/-! ## Cache invariant machinery -/

/-- `evict_oldest` preserves the cache invariant, pops exactly one
recency entry and keeps the budgets. -/
theorem evict_oldest_inv {c c' : TileCache} (h : CacheInv c)
    (he : c.evict_oldest = some c') :
    CacheInv c' ∧ c'.access_order.length + 1 = c.access_order.length ∧
      c'.max_tiles = c.max_tiles ∧ c'.max_memory = c.max_memory := by
  obtain ⟨hnd, hperm, hmem⟩ := h
  simp only [residentKeys] at hnd hperm
  rcases hao : c.access_order with _ | ⟨o, rest⟩
  · simp only [TileCache.evict_oldest, hao] at he
    exact Option.noConfusion he
  · rcases hlk : lookupTile o c.tiles with _ | e
    · simp only [TileCache.evict_oldest, hao, hlk] at he
      exact Option.noConfusion he
    · simp only [TileCache.evict_oldest, hao, hlk, Option.some.injEq] at he
      subst he
      rw [hao] at hperm
      have hperm' : rest.Perm ((c.tiles.map Prod.fst).erase o) := by
        have h2 := hperm.erase o
        rwa [List.erase_cons_head] at h2
      have herase : (c.tiles.map Prod.fst).erase o =
          (c.tiles.map Prod.fst).filter (fun k => decide (k ≠ o)) := by
        rw [hnd.erase_eq_filter o, ne_pred_eq]
      refine ⟨⟨?_, ?_, ?_⟩, by simp [hao], rfl, rfl⟩
      · show ((eraseKey o c.tiles).map Prod.fst).Nodup
        rw [keys_eraseKey]
        exact hnd.filter _
      · show rest.Perm ((eraseKey o c.tiles).map Prod.fst)
        rw [keys_eraseKey, ← herase]
        exact hperm'
      · show c.current_memory - e.memory_size = memSum (eraseKey o c.tiles)
        have h3 := memSum_eraseKey hnd hlk
        omega

/-- Under the invariant a non-empty cache always evicts successfully. -/
theorem evict_oldest_some {c : TileCache} (h : CacheInv c) (hne : c.tiles ≠ []) :
    ∃ c', c.evict_oldest = some c' := by
  obtain ⟨hnd, hperm, hmem⟩ := h
  have hkeys : residentKeys c ≠ [] := by
    unfold residentKeys
    simpa using hne
  have hlen : c.access_order ≠ [] := by
    intro hcon
    rw [hcon] at hperm
    exact hkeys hperm.nil_eq.symm
  rcases hao : c.access_order with _ | ⟨o, rest⟩
  · exact absurd hao hlen
  · have homem : o ∈ residentKeys c := by
      rw [← hperm.mem_iff, hao]
      exact List.mem_cons_self _ _
    obtain ⟨e, hlk⟩ := lookupTile_some_of_mem homem
    refine ⟨⟨eraseKey o c.tiles, rest, c.max_tiles,
      c.current_memory - e.memory_size, c.max_memory⟩, ?_⟩
    simp [TileCache.evict_oldest, hao, hlk]

/-- The fuelled eviction loop preserves the invariant and the budgets. -/
theorem evictLoopGo_inv (mem : Nat) :
    ∀ (fuel : Nat) (c : TileCache), CacheInv c →
      CacheInv (TileCache.evictLoopGo mem fuel c) ∧
      (TileCache.evictLoopGo mem fuel c).max_tiles = c.max_tiles ∧
      (TileCache.evictLoopGo mem fuel c).max_memory = c.max_memory := by
  intro fuel
  induction fuel with
  | zero => exact fun c h => ⟨h, rfl, rfl⟩
  | succ n ih =>
    intro c h
    unfold TileCache.evictLoopGo
    cases hcond : c.should_evict mem with
    | false => exact ⟨h, rfl, rfl⟩
    | true =>
      rcases he : c.evict_oldest with _ | c'
      · exact ⟨h, rfl, rfl⟩
      · obtain ⟨h', _, hmt, hmm⟩ := evict_oldest_inv h he
        obtain ⟨a, b, d⟩ := ih c' h'
        exact ⟨a, b.trans hmt, d.trans hmm⟩

/-- With fuel exceeding the recency-list length (as `evictTiles`
supplies), the loop only stops when `should_evict` is false: the Rust
`while` postcondition. -/
theorem evictLoopGo_post (mem : Nat) :
    ∀ (fuel : Nat) (c : TileCache), c.access_order.length < fuel → CacheInv c →
      (TileCache.evictLoopGo mem fuel c).should_evict mem = false := by
  intro fuel
  induction fuel with
  | zero => omega
  | succ n ih =>
    intro c hfuel h
    unfold TileCache.evictLoopGo
    cases hcond : c.should_evict mem with
    | false => exact hcond
    | true =>
      have hne : c.tiles ≠ [] := ((should_evict_iff c mem).mp hcond).1
      obtain ⟨c', he⟩ := evict_oldest_some h hne
      obtain ⟨h', hlen, _, _⟩ := evict_oldest_inv h he
      rw [if_pos rfl, he]
      exact ih c' (by omega) h'

/-- `evictTiles` preserves the invariant. -/
theorem evictTiles_inv {c : TileCache} (mem : Nat) (h : CacheInv c) :
    CacheInv (c.evictTiles mem) :=
  (evictLoopGo_inv mem _ c h).1

/-- `evictTiles` preserves the budgets. -/
theorem evictTiles_fields {c : TileCache} (mem : Nat) (h : CacheInv c) :
    (c.evictTiles mem).max_tiles = c.max_tiles ∧
    (c.evictTiles mem).max_memory = c.max_memory :=
  (evictLoopGo_inv mem _ c h).2

/-- After `evictTiles`, `should_evict` is false. -/
theorem evictTiles_post {c : TileCache} (mem : Nat) (h : CacheInv c) :
    (c.evictTiles mem).should_evict mem = false :=
  evictLoopGo_post mem _ c (by omega) h

/-- Appending a fresh entry as newest preserves the invariant. -/
theorem append_entry_inv {c1 : TileCache} (id : TileId) (e : CachedTile)
    (h : CacheInv c1) (hid : id ∉ c1.tiles.map Prod.fst) :
    CacheInv ⟨c1.tiles ++ [(id, e)], c1.access_order ++ [id], c1.max_tiles,
      c1.current_memory + e.memory_size, c1.max_memory⟩ := by
  obtain ⟨hnd, hperm, hmem⟩ := h
  simp only [residentKeys] at hnd hperm
  refine ⟨?_, ?_, ?_⟩
  · show ((c1.tiles ++ [(id, e)]).map Prod.fst).Nodup
    rw [List.map_append]
    simp only [List.nodup_append, List.map_cons, List.map_nil]
    refine ⟨hnd, List.nodup_singleton id, ?_⟩
    intro a ha hb
    simp only [List.mem_singleton] at hb
    exact hid (hb ▸ ha)
  · show (c1.access_order ++ [id]).Perm ((c1.tiles ++ [(id, e)]).map Prod.fst)
    rw [List.map_append]
    exact hperm.append_right _
  · show c1.current_memory + e.memory_size = memSum (c1.tiles ++ [(id, e)])
    rw [memSum_append, hmem]

/-- `insert` preserves the cache invariant. -/
theorem insert_inv {c : TileCache} (id : TileId) (e : CachedTile) (h : CacheInv c) :
    CacheInv (c.insert id e) := by
  unfold TileCache.insert
  have h1 : CacheInv (c.evictTiles e.memory_size) := evictTiles_inv _ h
  rcases hlk : lookupTile id (c.evictTiles e.memory_size).tiles with _ | old <;>
    simp only [hlk]
  · exact append_entry_inv id e h1 (lookupTile_eq_none.mp hlk)
  · obtain ⟨hnd, hperm, hmem⟩ := h1
    simp only [residentKeys] at hnd hperm
    have h2 : CacheInv ⟨eraseKey id (c.evictTiles e.memory_size).tiles,
        (c.evictTiles e.memory_size).access_order.filter (fun k => decide (k ≠ id)),
        (c.evictTiles e.memory_size).max_tiles,
        (c.evictTiles e.memory_size).current_memory - old.memory_size,
        (c.evictTiles e.memory_size).max_memory⟩ := by
      refine ⟨?_, ?_, ?_⟩
      · show ((eraseKey id (c.evictTiles e.memory_size).tiles).map Prod.fst).Nodup
        rw [keys_eraseKey]
        exact hnd.filter _
      · show List.Perm _ ((eraseKey id (c.evictTiles e.memory_size).tiles).map Prod.fst)
        rw [keys_eraseKey]
        exact hperm.filter _
      · show (c.evictTiles e.memory_size).current_memory - old.memory_size =
          memSum (eraseKey id (c.evictTiles e.memory_size).tiles)
        have h3 := memSum_eraseKey hnd hlk
        omega
    have hid2 : id ∉ (eraseKey id (c.evictTiles e.memory_size).tiles).map Prod.fst := by
      rw [keys_eraseKey]
      intro hmem2
      rcases List.mem_filter.mp hmem2 with ⟨_, hdec⟩
      simp at hdec
    exact append_entry_inv id e h2 hid2

/-- `get` preserves the cache invariant. -/
theorem get_inv {c : TileCache} (id : TileId) (h : CacheInv c) :
    CacheInv (c.get id).2 := by
  obtain ⟨hnd, hperm, hmem⟩ := h
  unfold TileCache.get TileCache.update_access_order
  by_cases h1 : (lookupTile id c.tiles).isSome = true
  · simp only [h1, if_true]
    by_cases h2 : id ∈ c.access_order
    · simp only [h2, if_true]
      refine ⟨hnd, ?_, hmem⟩
      show (c.access_order.erase id ++ [id]).Perm (residentKeys c)
      refine List.Perm.trans ?_ hperm
      refine List.Perm.trans (List.perm_append_singleton id _) ?_
      exact (List.perm_cons_erase h2).symm
    · simp only [h2, if_false]
      exact ⟨hnd, hperm, hmem⟩
  · simp only [h1, if_false]
    exact ⟨hnd, hperm, hmem⟩

/-- `remove` preserves the cache invariant. -/
theorem remove_inv {c : TileCache} (id : TileId) (h : CacheInv c) :
    CacheInv (c.remove id).2 := by
  obtain ⟨hnd, hperm, hmem⟩ := h
  simp only [residentKeys] at hnd hperm
  unfold TileCache.remove
  rcases hlk : lookupTile id c.tiles with _ | e <;> simp only [hlk]
  · exact ⟨hnd, hperm, hmem⟩
  · refine ⟨?_, ?_, ?_⟩
    · show ((eraseKey id c.tiles).map Prod.fst).Nodup
      rw [keys_eraseKey]
      exact hnd.filter _
    · show List.Perm _ ((eraseKey id c.tiles).map Prod.fst)
      rw [keys_eraseKey]
      exact hperm.filter _
    · show c.current_memory - e.memory_size = memSum (eraseKey id c.tiles)
      have h3 := memSum_eraseKey hnd hlk
      omega

/-- Every reachable cache state satisfies the internal invariant. -/
theorem cacheInv_reachable {c : TileCache} (h : CacheReachable c) : CacheInv c := by
  induction h with
  | new mt mm => exact ⟨List.nodup_nil, List.Perm.refl _, rfl⟩
  | insert id e _ ih => exact insert_inv id e ih
  | get id _ ih => exact get_inv id ih
  | remove id _ ih => exact remove_inv id ih
  | clear _ ih => exact ⟨List.nodup_nil, List.Perm.refl _, rfl⟩

/-- `insert` keeps the budget fields. -/
theorem insert_fields {c : TileCache} (id : TileId) (e : CachedTile) (h : CacheInv c) :
    (c.insert id e).max_tiles = c.max_tiles ∧
    (c.insert id e).max_memory = c.max_memory := by
  unfold TileCache.insert
  obtain ⟨hf1, hf2⟩ := evictTiles_fields e.memory_size h
  rcases hlk : lookupTile id (c.evictTiles e.memory_size).tiles with _ | old <;>
    simp only [hlk] <;> exact ⟨hf1, hf2⟩

/-- `get` keeps the tile map and the budget fields. -/
theorem get_fields (c : TileCache) (id : TileId) :
    (c.get id).2.tiles = c.tiles ∧ (c.get id).2.max_tiles = c.max_tiles := by
  unfold TileCache.get TileCache.update_access_order
  by_cases h1 : (lookupTile id c.tiles).isSome = true
  · simp only [h1, if_true]
    by_cases h2 : id ∈ c.access_order <;> simp [h2]
  · simp only [h1, if_false]
    exact ⟨rfl, rfl⟩

/-- `remove` keeps the budget fields and does not grow the tile map. -/
theorem remove_fields (c : TileCache) (id : TileId) :
    (c.remove id).2.tiles.length ≤ c.tiles.length ∧
    (c.remove id).2.max_tiles = c.max_tiles := by
  unfold TileCache.remove
  rcases hlk : lookupTile id c.tiles with _ | e <;> simp only [hlk]
  · exact ⟨Nat.le_refl _, trivial⟩
  · exact ⟨List.length_filter_le _ _, trivial⟩

/-- An insert into an invariant-satisfying cache respects the count
bound `max max_tiles 1`. -/
theorem insert_length {c : TileCache} (id : TileId) (e : CachedTile) (h : CacheInv c) :
    (c.insert id e).tiles.length ≤ max c.max_tiles 1 := by
  unfold TileCache.insert
  have hpost := evictTiles_post e.memory_size h
  rw [should_evict_eq_false_iff] at hpost
  obtain ⟨hmt, _⟩ := evictTiles_fields e.memory_size h
  have hfil := List.length_filter_le (fun p => decide (p.1 ≠ id))
    (c.evictTiles e.memory_size).tiles
  rcases hlk : lookupTile id (c.evictTiles e.memory_size).tiles with _ | old <;>
    simp only [hlk] <;>
    simp only [List.length_append, List.length_cons, List.length_nil] <;>
    rcases hpost with h0 | ⟨h1, _⟩
  · rw [h0]
    simp
  · rw [hmt] at h1
    omega
  · rw [h0]
    show (eraseKey id []).length + (0 + 1) ≤ max c.max_tiles 1
    simp [eraseKey]
  · show (eraseKey id (c.evictTiles e.memory_size).tiles).length + (0 + 1) ≤
      max c.max_tiles 1
    unfold eraseKey
    rw [hmt] at h1
    omega

/-- C9 part: every reachable cache state has at most
`max max_tiles 1` resident tiles. -/
theorem cache_count_bound_aux {c : TileCache} (h : CacheReachable c) :
    c.tiles.length ≤ max c.max_tiles 1 := by
  induction h with
  | new mt mm => simp [TileCache.new]
  | insert id e hr _ =>
    have hb := insert_length id e (cacheInv_reachable hr)
    have hf := (insert_fields id e (cacheInv_reachable hr)).1
    omega
  | @get s id hr ih =>
    have hf := get_fields s id
    rw [hf.1, hf.2]
    exact ih
  | @remove s id hr ih =>
    have hf := remove_fields s id
    omega
  | clear hr ih => simp [TileCache.clear]

/-- C5: in every cache state reachable by insert/get/peek/remove/clear
from a fresh cache, the recency order is a permutation of the resident
key set and `current_memory` equals the sum of resident entry sizes
(`peek` and the other read-only operations do not mutate the state, so
reachability closes over the mutating operations). -/
theorem cache_invariants {c : TileCache} (h : CacheReachable c) :
    c.access_order.Perm (residentKeys c) ∧
    c.current_memory = memSum c.tiles :=
  ⟨(cacheInv_reachable h).2.1, (cacheInv_reachable h).2.2⟩

/-- Witness for C5 at the reachable state
`insert (0,0,0) (size 5)` after `new 2 100`. -/
theorem cache_invariants_witness :
    ((TileCache.new 2 100).insert ⟨0, 0, 0⟩ ⟨5⟩).access_order.Perm
      (residentKeys ((TileCache.new 2 100).insert ⟨0, 0, 0⟩ ⟨5⟩)) ∧
    ((TileCache.new 2 100).insert ⟨0, 0, 0⟩ ⟨5⟩).current_memory =
      memSum ((TileCache.new 2 100).insert ⟨0, 0, 0⟩ ⟨5⟩).tiles :=
  cache_invariants (CacheReachable.insert ⟨0, 0, 0⟩ ⟨5⟩ (CacheReachable.new 2 100))

/-- C9: every reachable cache state holds at most `max max_tiles 1`
resident tiles; in particular at most `max_tiles` whenever
`max_tiles ≥ 1`; and with `max_tiles = 0` an insert still succeeds and
the count reaches 1 (the non-empty guard stops eviction at one entry, so
`max_tiles` alone is not an upper bound then). -/
theorem cache_count_bound :
    (∀ c : TileCache, CacheReachable c → c.tiles.length ≤ max c.max_tiles 1) ∧
    (∀ c : TileCache, CacheReachable c → 1 ≤ c.max_tiles →
      c.tiles.length ≤ c.max_tiles) ∧
    ((TileCache.new 0 100).insert ⟨0, 0, 0⟩ ⟨5⟩).tiles.length = 1 := by
  refine ⟨fun c h => cache_count_bound_aux h, ?_, by decide⟩
  intro c h h1
  have := cache_count_bound_aux h
  omega

/-- Witness for C9 at the reachable state
`insert (0,0,0) (size 5)` after `new 2 100`. -/
theorem cache_count_bound_witness :
    ((TileCache.new 2 100).insert ⟨0, 0, 0⟩ ⟨5⟩).tiles.length ≤
      max ((TileCache.new 2 100).insert ⟨0, 0, 0⟩ ⟨5⟩).max_tiles 1 ∧
    ((TileCache.new 2 100).insert ⟨0, 0, 0⟩ ⟨5⟩).tiles.length ≤
      ((TileCache.new 2 100).insert ⟨0, 0, 0⟩ ⟨5⟩).max_tiles :=
  ⟨cache_count_bound.1 _ (CacheReachable.insert ⟨0, 0, 0⟩ ⟨5⟩ (CacheReachable.new 2 100)),
   cache_count_bound.2.1 _ (CacheReachable.insert ⟨0, 0, 0⟩ ⟨5⟩ (CacheReachable.new 2 100))
     (by decide)⟩

/-! ## Concrete cache-state transitions -/

/-- One unfolding of the fuelled eviction loop. -/
theorem evictLoopGo_succ (mem fuel : Nat) (c : TileCache) :
    TileCache.evictLoopGo mem (fuel + 1) c =
      if c.should_evict mem = true then
        match c.evict_oldest with
        | some c' => TileCache.evictLoopGo mem fuel c'
        | none => c
      else c := rfl

/-- When nothing is over budget the eviction loop does nothing. -/
theorem evictTiles_of_not {c : TileCache} {mem : Nat}
    (h : c.should_evict mem = false) : c.evictTiles mem = c := by
  unfold TileCache.evictTiles
  rw [evictLoopGo_succ, if_neg (by simp [h])]

/-- One eviction step of the loop. -/
theorem evictTiles_step {c c' : TileCache} {mem : Nat}
    (hc : c.should_evict mem = true) (he : c.evict_oldest = some c')
    (hl : c'.access_order.length + 1 = c.access_order.length) :
    c.evictTiles mem = c'.evictTiles mem := by
  unfold TileCache.evictTiles
  rw [← hl, evictLoopGo_succ, if_pos hc, he]

/-- Inserting into an empty cache: no eviction, entry installed as the
only resident (for any budgets, even a zero `max_tiles` or an entry
above the memory budget). -/
theorem insert_empty {mt mm : Nat} (k : TileId) (e : CachedTile) :
    (⟨[], [], mt, 0, mm⟩ : TileCache).insert k e =
      ⟨[(k, e)], [k], mt, e.memory_size, mm⟩ := by
  have h3 : (⟨[], [], mt, 0, mm⟩ : TileCache).should_evict e.memory_size = false := by
    rw [should_evict_eq_false_iff]
    left
    rfl
  unfold TileCache.insert
  simp only [evictTiles_of_not h3]
  simp [lookupTile]

/-- Inserting a fresh key into a one-resident `max_tiles = 2` cache with
room in the memory budget: no eviction. -/
theorem insert_one {k1 k : TileId} {e1 e : CachedTile} {mm : Nat}
    (h1k : k1 ≠ k) (hmem : e1.memory_size + e.memory_size ≤ mm) :
    (⟨[(k1, e1)], [k1], 2, e1.memory_size, mm⟩ : TileCache).insert k e =
      ⟨[(k1, e1), (k, e)], [k1, k], 2, e1.memory_size + e.memory_size, mm⟩ := by
  have h3 : (⟨[(k1, e1)], [k1], 2, e1.memory_size, mm⟩ : TileCache).should_evict
      e.memory_size = false := by
    rw [should_evict_eq_false_iff]
    right
    exact ⟨by simp, by simpa using hmem⟩
  unfold TileCache.insert
  simp only [evictTiles_of_not h3]
  simp [lookupTile, h1k]

/-- Inserting a fresh key into a full `max_tiles = 2` cache whose
recency order is aligned with the map order: the oldest entry `a` is
evicted, then `k` is installed. -/
theorem insert_two_aligned {a b k : TileId} {ea eb e : CachedTile} {mm : Nat}
    (hab : a ≠ b) (_hak : a ≠ k) (hbk : b ≠ k)
    (hmem : eb.memory_size + e.memory_size ≤ mm) :
    (⟨[(a, ea), (b, eb)], [a, b], 2, ea.memory_size + eb.memory_size, mm⟩ :
        TileCache).insert k e =
      ⟨[(b, eb), (k, e)], [b, k], 2, eb.memory_size + e.memory_size, mm⟩ := by
  have h1 : (⟨[(a, ea), (b, eb)], [a, b], 2, ea.memory_size + eb.memory_size, mm⟩ :
      TileCache).should_evict e.memory_size = true := by
    rw [should_evict_iff]
    exact ⟨by simp, Or.inl (by simp)⟩
  have h2 : (⟨[(a, ea), (b, eb)], [a, b], 2, ea.memory_size + eb.memory_size, mm⟩ :
      TileCache).evict_oldest = some ⟨[(b, eb)], [b], 2, eb.memory_size, mm⟩ := by
    simp [TileCache.evict_oldest, lookupTile, eraseKey, Ne.symm hab, Nat.add_sub_cancel_left]
  have h3 : (⟨[(b, eb)], [b], 2, eb.memory_size, mm⟩ : TileCache).should_evict
      e.memory_size = false := by
    rw [should_evict_eq_false_iff]
    right
    exact ⟨by simp, by simpa using hmem⟩
  have hchain : (⟨[(a, ea), (b, eb)], [a, b], 2, ea.memory_size + eb.memory_size, mm⟩ :
      TileCache).evictTiles e.memory_size = ⟨[(b, eb)], [b], 2, eb.memory_size, mm⟩ :=
    (evictTiles_step h1 h2 (by simp)).trans (evictTiles_of_not h3)
  unfold TileCache.insert
  simp only [hchain]
  simp [lookupTile, hbk]

/-- Inserting a fresh key into a full `max_tiles = 2` cache whose
recency order is reversed against the map order (after a `get` touched
the older entry): the recency-oldest entry `b` is evicted. -/
theorem insert_two_crossed {a b k : TileId} {ea eb e : CachedTile} {mm : Nat}
    (hab : a ≠ b) (hak : a ≠ k) (_hbk : b ≠ k)
    (hmem : ea.memory_size + e.memory_size ≤ mm) :
    (⟨[(a, ea), (b, eb)], [b, a], 2, ea.memory_size + eb.memory_size, mm⟩ :
        TileCache).insert k e =
      ⟨[(a, ea), (k, e)], [a, k], 2, ea.memory_size + e.memory_size, mm⟩ := by
  have h1 : (⟨[(a, ea), (b, eb)], [b, a], 2, ea.memory_size + eb.memory_size, mm⟩ :
      TileCache).should_evict e.memory_size = true := by
    rw [should_evict_iff]
    exact ⟨by simp, Or.inl (by simp)⟩
  have h2 : (⟨[(a, ea), (b, eb)], [b, a], 2, ea.memory_size + eb.memory_size, mm⟩ :
      TileCache).evict_oldest = some ⟨[(a, ea)], [a], 2, ea.memory_size, mm⟩ := by
    simp [TileCache.evict_oldest, lookupTile, eraseKey, hab, Nat.add_sub_cancel]
  have h3 : (⟨[(a, ea)], [a], 2, ea.memory_size, mm⟩ : TileCache).should_evict
      e.memory_size = false := by
    rw [should_evict_eq_false_iff]
    right
    exact ⟨by simp, by simpa using hmem⟩
  have hchain : (⟨[(a, ea), (b, eb)], [b, a], 2, ea.memory_size + eb.memory_size, mm⟩ :
      TileCache).evictTiles e.memory_size = ⟨[(a, ea)], [a], 2, ea.memory_size, mm⟩ :=
    (evictTiles_step h1 h2 (by simp)).trans (evictTiles_of_not h3)
  unfold TileCache.insert
  simp only [hchain]
  simp [lookupTile, hak]

/-- A `get` of the older of two residents returns its entry and moves it
to most-recently-used. -/
theorem get_two {a b : TileId} {ea eb : CachedTile} {mt m mm : Nat} (_hab : a ≠ b) :
    (⟨[(a, ea), (b, eb)], [a, b], mt, m, mm⟩ : TileCache).get a =
      (some ea, ⟨[(a, ea), (b, eb)], [b, a], mt, m, mm⟩) := by
  unfold TileCache.get TileCache.update_access_order
  simp [lookupTile, List.erase_cons_head]

/-! ## LRU behaviour of a `max_tiles = 2` cache (claims C1, C2) -/

/-- Inserting a fresh small entry into a canonical 2-cache gives either
a single-resident state (from empty) or a two-resident state whose
older entry was already resident; the new key ends newest. -/
theorem canon_insert {mm bd : Nat} {c : TileCache} {k : TileId} {e : CachedTile}
    (hc : Canon2 mm bd c) (hk : k ∉ residentKeys c) (he : e.memory_size ≤ bd)
    (hbd : 2 * bd ≤ mm) :
    c.insert k e = ⟨[(k, e)], [k], 2, e.memory_size, mm⟩ ∨
    (∃ x ex, x ∈ residentKeys c ∧ x ≠ k ∧ ex.memory_size ≤ bd ∧
      c.insert k e =
        ⟨[(x, ex), (k, e)], [x, k], 2, ex.memory_size + e.memory_size, mm⟩) := by
  rcases hc with hc | ⟨k1, e1, he1, hc⟩ | ⟨a, ea, b, eb, hab, hea, heb, hc⟩
  · subst hc
    exact Or.inl (insert_empty k e)
  · subst hc
    have h1k : k1 ≠ k := by
      intro hEq
      exact hk (by simp [residentKeys, hEq])
    exact Or.inr ⟨k1, e1, by simp [residentKeys], h1k, he1,
      insert_one h1k (by omega)⟩
  · subst hc
    have hak : a ≠ k := by
      intro hEq
      exact hk (by simp [residentKeys, hEq])
    have hbk : b ≠ k := by
      intro hEq
      exact hk (by simp [residentKeys, hEq])
    exact Or.inr ⟨b, eb, by simp [residentKeys], hbk, heb,
      insert_two_aligned hab hak hbk (by omega)⟩

/-- Folding inserts of fresh distinct small entries keeps the cache in
canonical shape and its residents among the inserted keys. -/
theorem insertAll_canon {mm bd : Nat} :
    ∀ (l : List (TileId × CachedTile)) (c : TileCache),
      Canon2 mm bd c → (∀ p ∈ l, p.2.memory_size ≤ bd) → 2 * bd ≤ mm →
      (∀ p ∈ l, p.1 ∉ residentKeys c) → (l.map Prod.fst).Nodup →
      Canon2 mm bd (insertAll c l) ∧
        (∀ k ∈ residentKeys (insertAll c l),
          k ∈ residentKeys c ∨ k ∈ l.map Prod.fst) := by
  intro l
  induction l with
  | nil => exact fun c hc _ _ _ _ => ⟨hc, fun k hkm => Or.inl hkm⟩
  | cons p rest ih =>
    intro c hc hsz hbd hfresh hnd
    have hstep : insertAll c (p :: rest) = insertAll (c.insert p.1 p.2) rest := rfl
    rw [hstep]
    have hkc : p.1 ∉ residentKeys c := hfresh p (by simp)
    have hpe : p.2.memory_size ≤ bd := hsz p (by simp)
    have hdisj := canon_insert hc hkc hpe hbd
    have hsub : ∀ k ∈ residentKeys (c.insert p.1 p.2),
        k ∈ residentKeys c ∨ k = p.1 := by
      rcases hdisj with hEq | ⟨x, ex, hx, _, _, hEq⟩ <;> rw [hEq] <;> intro k hkm
      · simp [residentKeys] at hkm
        exact Or.inr hkm
      · simp [residentKeys] at hkm
        rcases hkm with h | h
        · exact Or.inl (h ▸ hx)
        · exact Or.inr h
    have hcanon2 : Canon2 mm bd (c.insert p.1 p.2) := by
      rcases hdisj with hEq | ⟨x, ex, hx, hxk, hex, hEq⟩
      · rw [hEq]
        exact Or.inr (Or.inl ⟨p.1, p.2, hpe, rfl⟩)
      · rw [hEq]
        exact Or.inr (Or.inr ⟨x, ex, p.1, p.2, hxk, hex, hpe, rfl⟩)
    simp only [List.map_cons, List.nodup_cons] at hnd
    have hfresh2 : ∀ q ∈ rest, q.1 ∉ residentKeys (c.insert p.1 p.2) := by
      intro q hq hqm
      rcases hsub q.1 hqm with h | h
      · exact hfresh q (by simp [hq]) h
      · exact hnd.1 (h ▸ List.mem_map_of_mem Prod.fst hq)
    obtain ⟨hrc, hrsub⟩ := ih (c.insert p.1 p.2) hcanon2
      (fun q hq => hsz q (by simp [hq])) hbd hfresh2 hnd.2
    refine ⟨hrc, ?_⟩
    intro k hkm
    rcases hrsub k hkm with h | h
    · rcases hsub k h with h2 | h2
      · exact Or.inl h2
      · exact Or.inr (by simp [h2])
    · exact Or.inr (by simp [h])

/-- From any canonical 2-cache, inserting two fresh distinct small
entries leaves exactly those two resident, oldest first. -/
theorem insert_last_two {mm bd : Nat} {c : TileCache} {a b : TileId}
    {ea eb : CachedTile} (hc : Canon2 mm bd c) (hbd : 2 * bd ≤ mm)
    (hea : ea.memory_size ≤ bd) (heb : eb.memory_size ≤ bd) (hab : a ≠ b)
    (hac : a ∉ residentKeys c) (hbc : b ∉ residentKeys c) :
    (c.insert a ea).insert b eb =
      ⟨[(a, ea), (b, eb)], [a, b], 2, ea.memory_size + eb.memory_size, mm⟩ := by
  rcases canon_insert hc hac hea hbd with hEq | ⟨x, ex, hx, hxa, hex, hEq⟩
  · rw [hEq]
    exact insert_one hab (by omega)
  · rw [hEq]
    have hxb : x ≠ b := by
      intro hEq2
      exact hbc (hEq2 ▸ hx)
    exact insert_two_aligned hxa hxb hab (by omega)

/-- The `insert A, insert B, get A, insert C` scenario of C1, ending in
the exact state with residents A (older) and C (newest). -/
theorem lru_scenario_state (A B C : TileId) (eA eB eC : CachedTile) (mm bd : Nat)
    (hAB : A ≠ B) (hAC : A ≠ C) (hBC : B ≠ C)
    (hA : eA.memory_size ≤ bd) (hB : eB.memory_size ≤ bd) (hC : eC.memory_size ≤ bd)
    (hbd : 2 * bd ≤ mm) :
    ((((TileCache.new 2 mm).insert A eA).insert B eB).get A).2.insert C eC =
      ⟨[(A, eA), (C, eC)], [A, C], 2, eA.memory_size + eC.memory_size, mm⟩ := by
  have h1 : (TileCache.new 2 mm).insert A eA =
      ⟨[(A, eA)], [A], 2, eA.memory_size, mm⟩ := insert_empty A eA
  have h2 : (⟨[(A, eA)], [A], 2, eA.memory_size, mm⟩ : TileCache).insert B eB =
      ⟨[(A, eA), (B, eB)], [A, B], 2, eA.memory_size + eB.memory_size, mm⟩ :=
    insert_one hAB (by omega)
  have h3 : (⟨[(A, eA), (B, eB)], [A, B], 2,
      eA.memory_size + eB.memory_size, mm⟩ : TileCache).get A =
      (some eA, ⟨[(A, eA), (B, eB)], [B, A], 2,
        eA.memory_size + eB.memory_size, mm⟩) := get_two hAB
  have h4 : (⟨[(A, eA), (B, eB)], [B, A], 2,
      eA.memory_size + eB.memory_size, mm⟩ : TileCache).insert C eC =
      ⟨[(A, eA), (C, eC)], [A, C], 2, eA.memory_size + eC.memory_size, mm⟩ :=
    insert_two_crossed hAB hAC hBC (by omega)
  rw [h1, h2, h3]
  exact h4

/-- C1: with `max_tiles = 2` and an ample memory budget (every entry at
most `bd` with `2·bd ≤ max_memory`, so memory never forces extra
evictions), the scenario insert A; insert B; get A; insert C leaves
exactly {A, C} resident (A preserved by the touch, B evicted); and in
general, after inserting any ≥ 2 distinct keys, exactly the last two
remain, in recency order. -/
theorem lru_two_keeps_recent :
    (∀ (A B C : TileId) (eA eB eC : CachedTile) (mm bd : Nat),
      A ≠ B → A ≠ C → B ≠ C →
      eA.memory_size ≤ bd → eB.memory_size ≤ bd → eC.memory_size ≤ bd →
      2 * bd ≤ mm →
      residentKeys
          (((((TileCache.new 2 mm).insert A eA).insert B eB).get A).2.insert C eC) =
        [A, C]) ∧
    (∀ (mm bd : Nat) (l : List (TileId × CachedTile)) (a b : TileId)
        (ea eb : CachedTile),
      ((l ++ [(a, ea), (b, eb)]).map Prod.fst).Nodup →
      (∀ p ∈ l ++ [(a, ea), (b, eb)], p.2.memory_size ≤ bd) → 2 * bd ≤ mm →
      residentKeys (insertAll (TileCache.new 2 mm) (l ++ [(a, ea), (b, eb)])) =
        [a, b]) := by
  constructor
  · intro A B C eA eB eC mm bd hAB hAC hBC hA hB hC hbd
    rw [lru_scenario_state A B C eA eB eC mm bd hAB hAC hBC hA hB hC hbd]
    rfl
  · intro mm bd l a b ea eb hnd hsz hbd
    have hsplit : insertAll (TileCache.new 2 mm) (l ++ [(a, ea), (b, eb)]) =
        ((insertAll (TileCache.new 2 mm) l).insert a ea).insert b eb := by
      unfold insertAll
      rw [List.foldl_append]
      rfl
    rw [hsplit]
    simp only [List.map_append, List.map_cons, List.map_nil, List.nodup_append] at hnd
    obtain ⟨hndl, hndab, hdisj⟩ := hnd
    have hab : a ≠ b := by
      intro hEq
      simp [hEq] at hndab
    have hcanon0 : Canon2 mm bd (TileCache.new 2 mm) := Or.inl rfl
    obtain ⟨hcl, hsubl⟩ := insertAll_canon l (TileCache.new 2 mm) hcanon0
      (fun p hp => hsz p (List.mem_append_left _ hp)) hbd
      (fun p _ => by simp [residentKeys, TileCache.new]) hndl
    have haf : a ∉ residentKeys (insertAll (TileCache.new 2 mm) l) := by
      intro hmem2
      rcases hsubl a hmem2 with h | h
      · simp [residentKeys, TileCache.new] at h
      · exact hdisj h (by simp)
    have hbf : b ∉ residentKeys (insertAll (TileCache.new 2 mm) l) := by
      intro hmem2
      rcases hsubl b hmem2 with h | h
      · simp [residentKeys, TileCache.new] at h
      · exact hdisj h (by simp)
    rw [insert_last_two hcl hbd (hsz (a, ea) (by simp)) (hsz (b, eb) (by simp))
      hab haf hbf]
    rfl

/-- Witness for C1: three distinct zoom-1 tiles of size 1, budget 2. -/
theorem lru_two_keeps_recent_witness :
    residentKeys
        (((((TileCache.new 2 2).insert ⟨0, 0, 1⟩ ⟨1⟩).insert ⟨1, 0, 1⟩ ⟨1⟩).get
            ⟨0, 0, 1⟩).2.insert ⟨0, 1, 1⟩ ⟨1⟩) = [⟨0, 0, 1⟩, ⟨0, 1, 1⟩] ∧
    residentKeys (insertAll (TileCache.new 2 2)
        ([(⟨0, 0, 1⟩, ⟨1⟩)] ++ [(⟨1, 0, 1⟩, ⟨1⟩), (⟨0, 1, 1⟩, ⟨1⟩)])) =
      [⟨1, 0, 1⟩, ⟨0, 1, 1⟩] :=
  ⟨lru_two_keeps_recent.1 ⟨0, 0, 1⟩ ⟨1, 0, 1⟩ ⟨0, 1, 1⟩ ⟨1⟩ ⟨1⟩ ⟨1⟩ 2 1
      (by decide) (by decide) (by decide) (by decide) (by decide) (by decide)
      (by decide),
   lru_two_keeps_recent.2 2 1 [(⟨0, 0, 1⟩, ⟨1⟩)] ⟨1, 0, 1⟩ ⟨0, 1, 1⟩ ⟨1⟩ ⟨1⟩
      (by decide) (by decide) (by decide)⟩

/-- C2: inserting an entry larger than the whole memory budget into an
empty cache succeeds (it becomes the only resident, over budget);
inserting a second oversized entry evicts the first, leaving only the
second resident. -/
theorem oversized_insert_accepted :
    ∀ (mt mm : Nat) (k1 k2 : TileId) (e1 e2 : CachedTile),
      k1 ≠ k2 → mm < e1.memory_size → mm < e2.memory_size →
      residentKeys ((TileCache.new mt mm).insert k1 e1) = [k1] ∧
      residentKeys (((TileCache.new mt mm).insert k1 e1).insert k2 e2) = [k2] := by
  intro mt mm k1 k2 e1 e2 hk h1 h2
  have hA : (TileCache.new mt mm).insert k1 e1 =
      ⟨[(k1, e1)], [k1], mt, e1.memory_size, mm⟩ := insert_empty k1 e1
  refine ⟨by rw [hA]; rfl, ?_⟩
  rw [hA]
  have hse : (⟨[(k1, e1)], [k1], mt, e1.memory_size, mm⟩ : TileCache).should_evict
      e2.memory_size = true := by
    rw [should_evict_iff]
    refine ⟨by simp, Or.inr ?_⟩
    simp only [TileCache.current_memory]
    omega
  have hev : (⟨[(k1, e1)], [k1], mt, e1.memory_size, mm⟩ : TileCache).evict_oldest =
      some ⟨[], [], mt, 0, mm⟩ := by
    simp [TileCache.evict_oldest, lookupTile, eraseKey, Nat.sub_self]
  have h3 : (⟨[], [], mt, 0, mm⟩ : TileCache).should_evict e2.memory_size = false := by
    rw [should_evict_eq_false_iff]
    left
    rfl
  have hchain : (⟨[(k1, e1)], [k1], mt, e1.memory_size, mm⟩ : TileCache).evictTiles
      e2.memory_size = ⟨[], [], mt, 0, mm⟩ :=
    (evictTiles_step hse hev (by simp)).trans (evictTiles_of_not h3)
  unfold TileCache.insert
  simp only [hchain]
  simp [lookupTile, residentKeys]

/-- Witness for C2: memory budget 10, two distinct keys of size 11. -/
theorem oversized_insert_accepted_witness :
    residentKeys ((TileCache.new 4 10).insert ⟨0, 0, 0⟩ ⟨11⟩) = [⟨0, 0, 0⟩] ∧
    residentKeys (((TileCache.new 4 10).insert ⟨0, 0, 0⟩ ⟨11⟩).insert ⟨1, 0, 1⟩ ⟨11⟩) =
      [⟨1, 0, 1⟩] :=
  oversized_insert_accepted 4 10 ⟨0, 0, 0⟩ ⟨1, 0, 1⟩ ⟨11⟩ ⟨11⟩
    (by decide) (by decide) (by decide)

/-! ## Visible-tile enumeration (claim C3) -/

/-- Truncated remainder by a positive modulus exceeds its negation. -/
theorem tmod_gt_neg {a b : Int} (hb : 0 < b) : -b < a.tmod b := by
  have hneg : ∀ x : Int, (-x).tmod b = -(x.tmod b) := by
    intro x
    rw [Int.tmod_def, Int.tmod_def, Int.neg_tdiv]
    ring
  rcases le_or_lt 0 a with ha | ha
  · have h1 := Int.tmod_nonneg b ha
    omega
  · have h2 : (-a).tmod b < b := Int.tmod_lt_of_pos (-a) hb
    have h3 := hneg (-a)
    rw [neg_neg] at h3
    omega

/-- `wrap_tile_x` computes the Euclidean remainder by `2^z`. -/
theorem wrap_tile_x_eq (x : Int) (z : Nat) :
    (wrap_tile_x x z : Int) = x % (2 ^ z : Int) := by
  unfold wrap_tile_x
  have hm : (0 : Int) < 2 ^ z := by positivity
  have h1 : -(2 ^ z : Int) < x.tmod (2 ^ z) := tmod_gt_neg hm
  have h2 : x.tmod (2 ^ z) < 2 ^ z := Int.tmod_lt_of_pos x hm
  push_cast [Int.toNat_of_nonneg (by omega : (0:Int) ≤ x.tmod (2 ^ z) + 2 ^ z),
    Int.toNat_of_nonneg hm.le]
  rw [show x.tmod (2 ^ z) + 2 ^ z = x.tmod (2 ^ z) + 2 ^ z * 1 by ring,
    Int.add_mul_emod_self_left]
  have h3 := Int.tdiv_add_tmod x (2 ^ z)
  rw [show x.tmod (2 ^ z) = x - 2 ^ z * x.tdiv (2 ^ z) by linarith,
    show x - 2 ^ z * x.tdiv (2 ^ z) = x + 2 ^ z * (-x.tdiv (2 ^ z)) by ring,
    Int.add_mul_emod_self_left]

/-- `wrap_tile_x` always lands strictly below `2^z`. -/
theorem wrap_tile_x_lt (x : Int) (z : Nat) : wrap_tile_x x z < 2 ^ z := by
  unfold wrap_tile_x
  have h2 : ((2 : Int) ^ z).toNat = 2 ^ z := by
    rw [show ((2 : Int) ^ z) = ((2 ^ z : Nat) : Int) by push_cast; ring]
    exact Int.toNat_natCast _
  simp only [h2]
  exact Nat.mod_lt _ (by positivity)

/-- `wrap_tile_x` is injective on any window of width at most `2^z`. -/
theorem wrap_tile_x_inj {z : Nat} {x y : Int} (hxy : x < y)
    (hwin : y - x < (2 : Int) ^ z) (h : wrap_tile_x x z = wrap_tile_x y z) :
    False := by
  have hm : (0 : Int) < 2 ^ z := by positivity
  have he : x % ((2 : Int) ^ z) = y % ((2 : Int) ^ z) := by
    rw [← wrap_tile_x_eq, ← wrap_tile_x_eq, h]
  have hz : (y - x) % ((2 : Int) ^ z) = 0 := by
    rw [Int.sub_emod, he]
    simp
  have hdvd : ((2 : Int) ^ z) ∣ (y - x) := Int.dvd_of_emod_eq_zero hz
  have hle : ((2 : Int) ^ z) ≤ y - x := Int.le_of_dvd (by omega) hdvd
  omega

/-- Membership in the enumeration helper. -/
theorem intRangeGo_mem : ∀ (n : Nat) (lo x : Int),
    x ∈ intRangeGo lo n ↔ lo ≤ x ∧ x < lo + n := by
  intro n
  induction n with
  | zero => intro lo x; simp [intRangeGo]
  | succ m ih =>
    intro lo x
    simp only [intRangeGo, List.mem_cons, ih (lo + 1) x]
    omega

/-- Membership in the integer range list. -/
theorem intRange_mem {lo hi x : Int} : x ∈ intRange lo hi ↔ lo ≤ x ∧ x ≤ hi := by
  unfold intRange
  rw [intRangeGo_mem]
  omega

/-- The enumeration helper is strictly increasing. -/
theorem intRangeGo_pairwise : ∀ (n : Nat) (lo : Int),
    (intRangeGo lo n).Pairwise (· < ·) := by
  intro n
  induction n with
  | zero => intro lo; simp [intRangeGo]
  | succ m ih =>
    intro lo
    rw [intRangeGo, List.pairwise_cons]
    refine ⟨?_, ih (lo + 1)⟩
    intro y hy
    rw [intRangeGo_mem] at hy
    omega

/-- The integer range list is strictly increasing. -/
theorem intRange_pairwise (lo hi : Int) : (intRange lo hi).Pairwise (· < ·) :=
  intRangeGo_pairwise _ lo

/-- The integer range list has no duplicates. -/
theorem intRange_nodup (lo hi : Int) : (intRange lo hi).Nodup :=
  (intRange_pairwise lo hi).imp (fun h => ne_of_lt h)

/-- Every enumerated tile carries the loop's zoom and valid coordinates. -/
theorem collectTiles_mem {z : Nat} {minx maxx miny maxy : Int} {t : TileId}
    (h : t ∈ collectTiles z minx maxx miny maxy) :
    t.z = z ∧ t.x < 2 ^ z ∧ t.y < 2 ^ z := by
  unfold collectTiles at h
  simp only [List.mem_flatMap, List.mem_map, List.mem_filter] at h
  obtain ⟨ty, ⟨_, hvalid⟩, tx, _, rfl⟩ := h
  simp only [is_valid_tile_y, Bool.and_eq_true, decide_eq_true_eq] at hvalid
  refine ⟨rfl, wrap_tile_x_lt tx z, ?_⟩
  show ty.toNat < 2 ^ z
  have hcast : ((2 ^ z : Nat) : Int) = (2 : Int) ^ z := by
    rw [Nat.cast_pow, Nat.cast_ofNat]
  omega

/-- The rows of the collection loop enumerate nondecreasing `y`. -/
theorem rows_flatMap_pairwise (z : Nat) (minx maxx : Int) :
    ∀ rows : List Int, rows.Pairwise (· < ·) → (∀ ty ∈ rows, 0 ≤ ty) →
      (rows.flatMap (fun ty => (intRange minx maxx).map
        (fun tx => TileId.mk (wrap_tile_x tx z) ty.toNat z))).Pairwise
        (fun a b => a.y ≤ b.y) := by
  intro rows
  induction rows with
  | nil => intro _ _; simp
  | cons ty rest ih =>
    intro hp h0
    rw [List.flatMap_cons, List.pairwise_append]
    rw [List.pairwise_cons] at hp
    refine ⟨?_, ih hp.2 (fun t ht => h0 t (List.mem_cons_of_mem _ ht)), ?_⟩
    · rw [List.pairwise_map]
      exact (intRange_pairwise minx maxx).imp (fun _ => le_refl _)
    · intro a ha b hb
      simp only [List.mem_map] at ha
      obtain ⟨tx, _, rfl⟩ := ha
      simp only [List.mem_flatMap, List.mem_map] at hb
      obtain ⟨ty2, hty2, tx2, _, rfl⟩ := hb
      have hlt : ty < ty2 := hp.1 ty2 hty2
      have h0a : 0 ≤ ty := h0 ty (by simp)
      show ty.toNat ≤ ty2.toNat
      omega

/-- The collection loop enumerates rows in nondecreasing `y` order
(row-major enumeration). -/
theorem collectTiles_row_major (z : Nat) (minx maxx miny maxy : Int) :
    (collectTiles z minx maxx miny maxy).Pairwise (fun a b => a.y ≤ b.y) := by
  unfold collectTiles
  apply rows_flatMap_pairwise
  · exact (intRange_pairwise miny maxy).filter _
  · intro ty hty
    have hvalid := (List.mem_filter.mp hty).2
    simp only [is_valid_tile_y, Bool.and_eq_true, decide_eq_true_eq] at hvalid
    exact hvalid.1

/-- With the column window no wider than the world (`2^z` tiles), the
collection loop never repeats a key. -/
theorem collectTiles_nodup (z : Nat) (minx maxx miny maxy : Int)
    (h : maxx - minx + 1 ≤ (2 : Int) ^ z) :
    (collectTiles z minx maxx miny maxy).Nodup := by
  unfold collectTiles
  rw [List.nodup_flatMap]
  have hrowdup : ∀ ty : Int,
      ((intRange minx maxx).map
        (fun tx => TileId.mk (wrap_tile_x tx z) ty.toNat z)).Nodup := by
    intro ty
    refine List.Nodup.map_on ?_ (intRange_nodup minx maxx)
    intro x hx y hy hxy
    simp only [TileId.mk.injEq] at hxy
    rcases lt_trichotomy x y with hlt | hEq | hgt
    · exact absurd hxy.1 (fun hc => wrap_tile_x_inj hlt
        (by rw [intRange_mem] at hx hy; omega) hc)
    · exact hEq
    · exact absurd hxy.1 (fun hc => wrap_tile_x_inj hgt
        (by rw [intRange_mem] at hx hy; omega) hc.symm)
  refine ⟨fun ty _ => hrowdup ty, ?_⟩
  have hrows : ((intRange miny maxy).filter
      (fun ty => is_valid_tile_y ty z)).Pairwise (· < ·) :=
    (intRange_pairwise miny maxy).filter _
  have h0 : ∀ ty ∈ (intRange miny maxy).filter (fun ty => is_valid_tile_y ty z),
      0 ≤ ty := by
    intro ty hty
    have hvalid := (List.mem_filter.mp hty).2
    simp only [is_valid_tile_y, Bool.and_eq_true, decide_eq_true_eq] at hvalid
    exact hvalid.1
  refine hrows.imp_of_mem ?_
  intro ty1 ty2 h1 h2 hlt
  intro t ht1 ht2
  simp only [List.mem_map] at ht1 ht2
  obtain ⟨tx1, _, rfl⟩ := ht1
  obtain ⟨tx2, _, hEq⟩ := ht2
  have hy : ty2.toNat = ty1.toNat := congrArg TileId.y hEq
  have h01 : 0 ≤ ty1 := h0 ty1 h1
  have h02 : 0 ≤ ty2 := h0 ty2 h2
  omega

/-- C3 (amended): for every kernel instance and camera, every enumerated
key has the camera's integer zoom and coordinates in `[0, 2^z)` (the y
filter and x wrap guarantee this), the enumeration is row-major (`y`
nondecreasing); and the list is duplicate-free whenever the enumerated
column window `max_x - min_x + 1` does not exceed the world width `2^z`.
At low zoom the window can exceed `2^z` and wrapped duplicates occur, so
the unconditional duplicate-freedom of the original claim fails. -/
theorem visible_tiles_spec (T : Transcendental) (c : MapCamera) (buffer : Int) :
    (∀ t ∈ c.visible_tiles_with_buffer T buffer,
        t.z = c.tile_zoom ∧ t.x < 2 ^ c.tile_zoom ∧ t.y < 2 ^ c.tile_zoom) ∧
    (c.visible_tiles_with_buffer T buffer).Pairwise (fun a b => a.y ≤ b.y) ∧
    ((c.visibleBounds T buffer).2.1 - (c.visibleBounds T buffer).1 + 1 ≤
        (2 : Int) ^ c.tile_zoom →
      (c.visible_tiles_with_buffer T buffer).Nodup) := by
  refine ⟨?_, ?_, ?_⟩
  · intro t ht
    exact collectTiles_mem ht
  · exact collectTiles_row_major _ _ _ _ _
  · intro h
    exact collectTiles_nodup _ _ _ _ _ h

/-- The camera at (0°, 0°), zoom 0, 256×256 viewport has integer zoom 0.
(`T0` agrees with the exact f64 values of the source at these inputs.) -/
theorem tile_zoom_zoom0 : (⟨(0, 0), 0, 256, 256⟩ : MapCamera).tile_zoom = 0 := by
  unfold MapCamera.tile_zoom
  norm_num

/-- Bounds of the zoom-0 camera: a 6-column window over a 1-tile world. -/
theorem bounds_zoom0 :
    (⟨(0, 0), 0, 256, 256⟩ : MapCamera).visibleBounds T0 1 = (-2, 3, -2, 3) := by
  have hsc : (⟨(0, 0), 0, 256, 256⟩ : MapCamera).zoom_scale T0 = 1 := rfl
  have htz := tile_zoom_zoom0
  have hfl : ⌊(1 / 2 : ℚ)⌋ = 0 := by norm_num
  have hcl : ⌈(1 / 2 : ℚ)⌉ = 1 := by
    rw [Int.ceil_eq_iff]
    norm_num
  have hclv : ⌈(256 : ℚ) / (256 * 1)⌉ = 1 := by
    rw [show (256 : ℚ) / (256 * 1) = 1 by norm_num]
    exact Int.ceil_one
  have htd : (2 : Int).tdiv 2 = 1 := rfl
  unfold MapCamera.visibleBounds lon_lat_to_tile_f64 TILE_SIZE
  rw [hsc, htz]
  show ((⌊(0 + 180) / 360 * ((2:ℚ) ^ (0:Nat))⌋ - ((⌈(256 : ℚ) / (256 * 1)⌉ + 1).tdiv 2 + 1),
    ⌈(0 + 180) / 360 * ((2:ℚ) ^ (0:Nat))⌉ + ((⌈(256 : ℚ) / (256 * 1)⌉ + 1).tdiv 2 + 1),
    ⌊T0.mercNorm 0 * ((2:ℚ) ^ (0:Nat))⌋ - ((⌈(256 : ℚ) / (256 * 1)⌉ + 1).tdiv 2 + 1),
    ⌈T0.mercNorm 0 * ((2:ℚ) ^ (0:Nat))⌉ + ((⌈(256 : ℚ) / (256 * 1)⌉ + 1).tdiv 2 + 1)) :
      Int × Int × Int × Int) = (-2, 3, -2, 3)
  rw [show (0 + 180 : ℚ) / 360 * ((2:ℚ) ^ (0:Nat)) = 1 / 2 by norm_num,
    show T0.mercNorm 0 * ((2:ℚ) ^ (0:Nat)) = 1 / 2 by norm_num [T0],
    hclv, hfl, hcl]
  rfl

/-- C3 counterexample: at the legal camera state centered on (0°, 0°)
with zoom 0, a 256×256 viewport and buffer 1 (where the f64 projection
of the source yields exactly the fractional center (1/2, 1/2) modelled
by `T0`), the visible-tile list repeats the single world tile (0,0,0)
six times: it is not duplicate-free. -/
theorem visible_tiles_duplicate_at_zoom0 :
    ¬ ((⟨(0, 0), 0, 256, 256⟩ : MapCamera).visible_tiles_with_buffer T0 1).Nodup := by
  have hvis : (⟨(0, 0), 0, 256, 256⟩ : MapCamera).visible_tiles_with_buffer T0 1 =
      collectTiles 0 (-2) 3 (-2) 3 := by
    unfold MapCamera.visible_tiles_with_buffer
    rw [bounds_zoom0, tile_zoom_zoom0]
  rw [hvis]
  decide

/-- The camera at (0°, 0°), zoom 5, 256×256 viewport has integer zoom 5. -/
theorem tile_zoom_zoom5 : (⟨(0, 0), 5, 256, 256⟩ : MapCamera).tile_zoom = 5 := by
  unfold MapCamera.tile_zoom
  norm_num
  rfl

/-- Bounds of the zoom-5 camera: a 5-column window over a 32-tile world. -/
theorem bounds_zoom5 :
    (⟨(0, 0), 5, 256, 256⟩ : MapCamera).visibleBounds T0 1 = (14, 18, 14, 18) := by
  have hsc : (⟨(0, 0), 5, 256, 256⟩ : MapCamera).zoom_scale T0 = 1 := rfl
  have htz := tile_zoom_zoom5
  have hfl : ⌊(16 : ℚ)⌋ = 16 := by norm_num
  have hcl : ⌈(16 : ℚ)⌉ = 16 := by
    rw [show (16 : ℚ) = ((16 : Int) : ℚ) by norm_num]
    exact Int.ceil_intCast 16
  have hclv : ⌈(256 : ℚ) / (256 * 1)⌉ = 1 := by
    rw [show (256 : ℚ) / (256 * 1) = 1 by norm_num]
    exact Int.ceil_one
  unfold MapCamera.visibleBounds lon_lat_to_tile_f64 TILE_SIZE
  rw [hsc, htz]
  show ((⌊(0 + 180) / 360 * ((2:ℚ) ^ (5:Nat))⌋ - ((⌈(256 : ℚ) / (256 * 1)⌉ + 1).tdiv 2 + 1),
    ⌈(0 + 180) / 360 * ((2:ℚ) ^ (5:Nat))⌉ + ((⌈(256 : ℚ) / (256 * 1)⌉ + 1).tdiv 2 + 1),
    ⌊T0.mercNorm 0 * ((2:ℚ) ^ (5:Nat))⌋ - ((⌈(256 : ℚ) / (256 * 1)⌉ + 1).tdiv 2 + 1),
    ⌈T0.mercNorm 0 * ((2:ℚ) ^ (5:Nat))⌉ + ((⌈(256 : ℚ) / (256 * 1)⌉ + 1).tdiv 2 + 1)) :
      Int × Int × Int × Int) = (14, 18, 14, 18)
  rw [show (0 + 180 : ℚ) / 360 * ((2:ℚ) ^ (5:Nat)) = 16 by norm_num,
    show T0.mercNorm 0 * ((2:ℚ) ^ (5:Nat)) = 16 by norm_num [T0],
    hclv, hfl, hcl]
  rfl

/-- The zoom-5 visible-tile list, with its bounds evaluated. -/
theorem visible_tiles_zoom5_eq :
    (⟨(0, 0), 5, 256, 256⟩ : MapCamera).visible_tiles_with_buffer T0 1 =
      collectTiles 5 14 18 14 18 := by
  unfold MapCamera.visible_tiles_with_buffer
  rw [bounds_zoom5, tile_zoom_zoom5]

/-- Witness for C3 at the zoom-5 camera: validity of an enumerated key
and duplicate-freedom of the whole list (window 5 ≤ 32). -/
theorem visible_tiles_spec_witness :
    ((⟨14, 14, 5⟩ : TileId).z = (⟨(0, 0), 5, 256, 256⟩ : MapCamera).tile_zoom ∧
      (⟨14, 14, 5⟩ : TileId).x < 2 ^ (⟨(0, 0), 5, 256, 256⟩ : MapCamera).tile_zoom ∧
      (⟨14, 14, 5⟩ : TileId).y < 2 ^ (⟨(0, 0), 5, 256, 256⟩ : MapCamera).tile_zoom) ∧
    ((⟨(0, 0), 5, 256, 256⟩ : MapCamera).visible_tiles_with_buffer T0 1).Nodup :=
  ⟨(visible_tiles_spec T0 ⟨(0, 0), 5, 256, 256⟩ 1).1 ⟨14, 14, 5⟩
      (by rw [visible_tiles_zoom5_eq]; decide),
   (visible_tiles_spec T0 ⟨(0, 0), 5, 256, 256⟩ 1).2.2
      (by rw [bounds_zoom5, tile_zoom_zoom5]; decide)⟩

/-! ## Negligible zoom changes (claim C6) -/

/-- When the net (clamped) zoom change is below 0.001, `zoom_at` takes
the early-return path: the zoom write has already happened, the rest of
the state is untouched. -/
theorem zoom_at_small_eq (T : Transcendental) (c : MapCamera) (delta sx sy : ℚ)
    (h : |clampQ (c.zoom + delta) 0 19 - c.zoom| < 0.001) :
    c.zoom_at T delta sx sy = { c with zoom := clampQ (c.zoom + delta) 0 19 } := by
  simp only [MapCamera.zoom_at]
  split
  · rfl
  · rename_i hcon
    exact absurd h hcon

/-- The guard bound of the C6 scenario holds at zoom 10, delta 1/2000. -/
theorem zoom_guard_holds :
    |clampQ ((10 : ℚ) + 1 / 2000) 0 19 - 10| < 0.001 := by
  have hcl : clampQ ((10 : ℚ) + 1 / 2000) 0 19 = 10 + 1 / 2000 := by
    unfold clampQ
    rw [max_eq_left (by norm_num), min_eq_left (by norm_num)]
  rw [hcl, show (10 + 1 / 2000 : ℚ) - 10 = 1 / 2000 by ring,
    abs_of_pos (by norm_num)]
  norm_num

/-- C6 counterexample: with zoom 10 and delta 1/2000 the clamped change
(1/2000) is below 0.001, yet `zoom_at` is not a no-op — the zoom field
has already been set to the clamped value before the early return, so it
differs from the old zoom. -/
theorem zoom_at_small_changes_zoom :
    |clampQ ((⟨(0, 0), 10, 800, 600⟩ : MapCamera).zoom + 1 / 2000) 0 19 -
        (⟨(0, 0), 10, 800, 600⟩ : MapCamera).zoom| < 0.001 ∧
    ((⟨(0, 0), 10, 800, 600⟩ : MapCamera).zoom_at T0 (1 / 2000) 0 0).zoom ≠
      (⟨(0, 0), 10, 800, 600⟩ : MapCamera).zoom := by
  refine ⟨zoom_guard_holds, ?_⟩
  rw [zoom_at_small_eq T0 ⟨(0, 0), 10, 800, 600⟩ (1 / 2000) 0 0 zoom_guard_holds]
  show clampQ ((10 : ℚ) + 1 / 2000) 0 19 ≠ 10
  rw [show clampQ ((10 : ℚ) + 1 / 2000) 0 19 = 10 + 1 / 2000 by
    unfold clampQ
    rw [max_eq_left (by norm_num), min_eq_left (by norm_num)]]
  norm_num

/-- C6 (amended): when the clamped zoom change is below 0.001, `zoom_at`
leaves center and viewport unchanged and sets `zoom` to the clamped new
value (which differs from the old zoom by less than 0.001 but is not in
general equal to it: the early return happens after the zoom write). -/
theorem zoom_at_negligible_spec (T : Transcendental) (c : MapCamera)
    (delta sx sy : ℚ)
    (h : |clampQ (c.zoom + delta) 0 19 - c.zoom| < 0.001) :
    (c.zoom_at T delta sx sy).center = c.center ∧
    (c.zoom_at T delta sx sy).viewport_width = c.viewport_width ∧
    (c.zoom_at T delta sx sy).viewport_height = c.viewport_height ∧
    (c.zoom_at T delta sx sy).zoom = clampQ (c.zoom + delta) 0 19 := by
  rw [zoom_at_small_eq T c delta sx sy h]
  exact ⟨rfl, rfl, rfl, rfl⟩

/-- Witness for C6 (amended) at zoom 10, delta 1/2000. -/
theorem zoom_at_negligible_spec_witness :
    ((⟨(0, 0), 10, 800, 600⟩ : MapCamera).zoom_at T0 (1 / 2000) 0 0).center =
      (⟨(0, 0), 10, 800, 600⟩ : MapCamera).center ∧
    ((⟨(0, 0), 10, 800, 600⟩ : MapCamera).zoom_at T0 (1 / 2000) 0 0).viewport_width =
      (⟨(0, 0), 10, 800, 600⟩ : MapCamera).viewport_width ∧
    ((⟨(0, 0), 10, 800, 600⟩ : MapCamera).zoom_at T0 (1 / 2000) 0 0).viewport_height =
      (⟨(0, 0), 10, 800, 600⟩ : MapCamera).viewport_height ∧
    ((⟨(0, 0), 10, 800, 600⟩ : MapCamera).zoom_at T0 (1 / 2000) 0 0).zoom =
      clampQ ((⟨(0, 0), 10, 800, 600⟩ : MapCamera).zoom + 1 / 2000) 0 19 :=
  zoom_at_negligible_spec T0 ⟨(0, 0), 10, 800, 600⟩ (1 / 2000) 0 0 zoom_guard_holds

end CPlace
